import Mathlib

/-!
# webp-converter: the `ImageConverter` class of `script.js`

A shallow embedding of the pure parts of `script.js` and of the state changes of
the queue and of the batch loop.

JavaScript Numbers are IEEE 754 binary64 values.  A finite Number is represented by
the rational it denotes; every arithmetic operation rounds its exact result to the
nearest binary64 value, ties to even (`roundBinary64`).  An operation whose
JavaScript result is not finite (overflow, division by zero) yields `none`.  The
sign of zero is not represented.
-/

namespace ImageConverter

/-! ## Binary64 arithmetic -/

/-- Nearest integer to a rational, a tie going to the even neighbour. -/
def roundHalfEven (x : ℚ) : ℤ :=
  let f := ⌊x⌋
  let r := x - f
  if r < 1 / 2 then f
  else if 1 / 2 < r then f + 1
  else if f % 2 = 0 then f else f + 1

/-- Exponent of the binade of `q`: `⌊log₂ |q|⌋`, and `-1022` throughout the
subnormal range. -/
def binade (q : ℚ) : ℤ := max (Int.log 2 |q|) (-1022)

/-- Spacing of the binary64 values in the binade of `q` (53 significant bits). -/
def ulp (q : ℚ) : ℚ := (2 : ℚ) ^ (binade q - 52)

/-- Nearest binary64 value to `q`, ties to even, in sign and magnitude form and
with no upper limit on the exponent. -/
def roundBinary64 (q : ℚ) : ℚ :=
  if q < 0 then -(roundHalfEven (-q / ulp q) * ulp q)
  else roundHalfEven (q / ulp q) * ulp q

/-- Largest finite binary64 value, `Number.MAX_VALUE`. -/
def maxFinite : ℚ := (2 ^ 53 - 1) * 2 ^ 971

/-- The Number produced by an operation whose exact result is `q`: the rounded
value, or `none` when rounding overflows to an infinity. -/
def fl (q : ℚ) : Option ℚ :=
  if |roundBinary64 q| ≤ maxFinite then some (roundBinary64 q) else none

/-- The operator `x + y` on finite Numbers. -/
def jsAdd (x y : ℚ) : Option ℚ := fl (x + y)

/-- The operator `x - y` on finite Numbers. -/
def jsSub (x y : ℚ) : Option ℚ := fl (x - y)

/-- The operator `x * y` on finite Numbers. -/
def jsMul (x y : ℚ) : Option ℚ := fl (x * y)

/-- The operator `x / y` on finite Numbers; dividing by zero gives an infinity or
NaN, hence `none`. -/
def jsDiv (x y : ℚ) : Option ℚ := if y = 0 then none else fl (x / y)

/-- `Math.round`: the integer closest to `x`, a tie going towards `+∞`. -/
def mathRound (x : ℚ) : ℤ := ⌊x + 1 / 2⌋

/-- Truthiness of a bound that is `null` or a finite Number: `null` and `0` are
falsy. -/
def truthy : Option ℚ → Bool
  | none => false
  | some x => decide (x ≠ 0)

/-! ## Dimension calculator -/

/-- The method `calculateNewDimensions(originalWidth, originalHeight, maxWidth,
maxHeight, maintainAspectRatio)`.  A bound is `null` (`none`) or a finite Number.
The result is the pair `(width, height)`; it is `none` when a Number that the
result depends on is not finite. -/
def calculateNewDimensions (originalWidth originalHeight : ℚ) (maxWidth maxHeight : Option ℚ)
    (maintainAspectRatio : Bool) : Option (ℤ × ℤ) :=
  if maintainAspectRatio then
    let aspectRatio := jsDiv originalWidth originalHeight
    if truthy maxWidth && truthy maxHeight then do
      let mw ← maxWidth
      let mh ← maxHeight
      let a ← aspectRatio
      let q ← jsDiv mw a
      if q ≤ mh then
        -- newWidth = maxWidth; newHeight = maxWidth / aspectRatio
        some (mathRound mw, mathRound q)
      else do
        -- newHeight = maxHeight; newWidth = maxHeight * aspectRatio
        let w ← jsMul mh a
        some (mathRound w, mathRound mh)
    else if truthy maxWidth then do
      let mw ← maxWidth
      let a ← aspectRatio
      let h ← jsDiv mw a
      some (mathRound mw, mathRound h)
    else if truthy maxHeight then do
      let mh ← maxHeight
      let a ← aspectRatio
      let w ← jsMul mh a
      some (mathRound w, mathRound mh)
    else
      some (mathRound originalWidth, mathRound originalHeight)
  else
    let newWidth := if truthy maxWidth then maxWidth.getD originalWidth else originalWidth
    let newHeight := if truthy maxHeight then maxHeight.getD originalHeight else originalHeight
    some (mathRound newWidth, mathRound newHeight)

/-! ## Files, results and the state of the converter -/

/-- A `File` of the browser, as far as the program reads it: `name`, `size` in
bytes, declared media `type`, and its contents. -/
structure File where
  name : String
  size : ℕ
  type : String
  contents : List ℕ
  deriving DecidableEq

/-- A `Blob` produced by the encoder. -/
structure Blob where
  size : ℕ
  contents : List ℕ
  deriving DecidableEq

/-- The record that `convertSingleImage` resolves with. -/
structure ConvertedFile where
  originalFile : File
  convertedBlob : Blob
  fileName : String
  originalSize : ℕ
  convertedSize : ℕ
  preview : String
  deriving DecidableEq

/-- The fields of the `ImageConverter` object that the methods below read or
write, and the messages passed to `showError` so far (oldest first). -/
structure State where
  files : List File
  convertedFiles : List ConvertedFile
  isConverting : Bool
  errors : List String

/-- The state set up by the constructor. -/
def State.initial : State :=
  { files := [], convertedFiles := [], isConverting := false, errors := [] }

/-- `str.startsWith(pre)`, on the characters of the strings. -/
def startsWith (str pre : String) : Bool := pre.data.isPrefixOf str.data

/-- The filter of `addFiles`: `file.type.startsWith('image/') &&
['image/png', 'image/jpeg', 'image/jpg'].includes(file.type)`. -/
def isImageFile (file : File) : Bool :=
  startsWith file.type "image/" && ["image/png", "image/jpeg", "image/jpg"].contains file.type

/-- The method `showError(message)`. -/
def showError (s : State) (message : String) : State :=
  { s with errors := s.errors ++ [message] }

/-- The method `updateUI()`, as far as it touches the state: the results are
dropped when the queue is not empty. -/
def updateUI (s : State) : State :=
  if s.files.length > 0 then { s with convertedFiles := [] } else s

/-- The method `addFiles(newFiles)`. -/
def addFiles (s : State) (newFiles : List File) : State :=
  let imageFiles := newFiles.filter isImageFile
  if s.files.length + imageFiles.length > 100 then
    showError s "Maximum 100 images allowed"
  else
    updateUI { s with files := s.files ++ imageFiles }

/-! ## File names -/

/-- Does `/\.[^/.]+$/` match the whole of `cs`: a dot, then one or more characters
other than `/` and `.`, up to the end of the input. -/
def matchesExtension : List Char → Bool
  | [] => false
  | c :: rest => c == '.' && !rest.isEmpty && rest.all (fun d => d != '/' && d != '.')

/-- Replace the leftmost match of `/\.[^/.]+$/` by the empty string: scan the start
positions from the left; a match reaches the end of the input, so the result is
what precedes it. -/
def stripExtension : List Char → List Char
  | [] => []
  | c :: cs => if matchesExtension (c :: cs) then [] else c :: stripExtension cs

/-- The method `getFileNameWithoutExtension(filename)`:
`filename.replace(/\.[^/.]+$/, '')`. -/
def getFileNameWithoutExtension (filename : String) : String :=
  String.mk (stripExtension filename.data)

/-- The template string of `convertSingleImage`:
`${filePrefix}${this.getFileNameWithoutExtension(file.name)}.${extension}` with
`extension = 'webp'`. -/
def outputFileName (filePrefix : String) (name : String) : String :=
  filePrefix ++ getFileNameWithoutExtension name ++ "." ++ "webp"

/-! ## Conversion -/

/-- The browser primitives used by `convertSingleImage`.  `loadImage` is the decoding
of the file by `Image`: the natural width and height on `onload`, `none` on
`onerror`.  `toBlob` is the encoding of the canvas of the given size (`none`: the
size is not finite) at the given quality: the blob, or `none` for `null`.
`toDataURL` is the preview. -/
structure Platform where
  loadImage : File → Option (ℕ × ℕ)
  toBlob : File → Option (ℤ × ℤ) → ℚ → Option Blob
  toDataURL : File → Option (ℤ × ℤ) → String

/-- The values read from the controls at the start of `convertImages`. -/
structure Controls where
  quality : ℚ
  maxWidth : Option ℚ
  maxHeight : Option ℚ
  maintainAspectRatio : Bool
  filePrefix : String

/-- The method `convertSingleImage`: the promise resolves with a record
(`Except.ok`) or rejects with the message of an `Error` (`Except.error`). -/
def convertSingleImage (p : Platform) (file : File) (c : Controls) : Except String ConvertedFile :=
  match p.loadImage file with
  | none => Except.error "Failed to load image"
  | some (width, height) =>
    let dims := calculateNewDimensions width height c.maxWidth c.maxHeight c.maintainAspectRatio
    match p.toBlob file dims c.quality with
    | some blob =>
      Except.ok
        { originalFile := file
          convertedBlob := blob
          fileName := outputFileName c.filePrefix file.name
          originalSize := file.size
          convertedSize := blob.size
          preview := p.toDataURL file dims }
    | none => Except.error "Failed to convert image"

/-- What the loop of `convertImages` changes: the results, the messages shown, the
local counter `processed`, and the last arguments of `updateProgress`. -/
structure Batch where
  convertedFiles : List ConvertedFile
  errors : List String
  processed : ℕ
  progress : Option (ℕ × ℕ)

/-- The method `updateProgress(current, total)`, as far as the counts it displays. -/
def updateProgress (b : Batch) (current total : ℕ) : Batch :=
  { b with progress := some (current, total) }

/-- The body of the `async` callback for one file, run when its conversion
settles: the `try` branch on success, the `catch` branch on failure. -/
def settle (p : Platform) (c : Controls) (totalFiles : ℕ) (b : Batch) (file : File) : Batch :=
  match convertSingleImage p file c with
  | Except.ok result =>
    updateProgress
      { b with convertedFiles := b.convertedFiles ++ [result], processed := b.processed + 1 }
      (b.processed + 1) totalFiles
  | Except.error message =>
    { b with errors := b.errors ++ ["Failed to convert " ++ file.name ++ ": " ++ message] }

/-- One `await Promise.all(chunk.map(...))`: the conversions of the chunk settle
one at a time, in the order `order chunk`. -/
def processChunk (p : Platform) (c : Controls) (order : List File → List File)
    (totalFiles : ℕ) (b : Batch) (chunk : List File) : Batch :=
  (order chunk).foldl (settle p c totalFiles) b

/-- The loop `for (let i = 0; i < totalFiles; i += chunkSize)` with
`chunk = this.files.slice(i, i + chunkSize)`; `fuel` bounds the number of
iterations. -/
def chunkLoop (p : Platform) (c : Controls) (order : List File → List File)
    (files : List File) (totalFiles : ℕ) : ℕ → ℕ → Batch → Batch
  | 0, _, b => b
  | fuel + 1, i, b =>
    if i < totalFiles then
      chunkLoop p c order files totalFiles fuel (i + 10)
        (processChunk p c order totalFiles b ((files.drop i).take 10))
    else b

/-- The method `convertImages()`, run without other events in between.  The
conversions of a chunk settle in the order given by `order`.  The result is the
final state, the final value of `processed` and the last progress report. -/
def convertImages (p : Platform) (c : Controls) (order : List File → List File) (s : State) :
    State × ℕ × Option (ℕ × ℕ) :=
  if s.isConverting || s.files.length == 0 then (s, 0, none)
  else
    let totalFiles := s.files.length
    let b := chunkLoop p c order s.files totalFiles totalFiles 0
      { convertedFiles := [], errors := s.errors, processed := 0, progress := none }
    ({ s with isConverting := false, convertedFiles := b.convertedFiles, errors := b.errors },
      b.processed, b.progress)

/-! ## Summary -/

/-- The method `x.toFixed(1)` on a finite Number, after ECMAScript
`Number.prototype.toFixed` with one fraction digit: `n` is the integer for which
`n / 10 - |x|` is closest to zero (the larger one of two), written in decimal, padded
with zeros to two digits, with a point before the last digit.  The result is `none`
from `10 ^ 21` on, where the method switches to the exponent form. -/
def toFixed1 (x : ℚ) : Option String :=
  let s := if x < 0 then "-" else ""
  let a := |x|
  if (10 : ℚ) ^ 21 ≤ a then none
  else
    let n := ⌊a * 10 + 1 / 2⌋.toNat
    let m := Nat.toDigits 10 n
    let m := if m.length ≤ 1 then List.replicate (2 - m.length) '0' ++ m else m
    let k := m.length
    some (s ++ String.mk (m.take (k - 1)) ++ "." ++ String.mk (m.drop (k - 1)))

/-- The method `updateSummary()`: the text written to the element `totalSaved`.  The
two totals are the `reduce` sums of the sizes; the result is `none` when a Number
on the way is not finite (an empty total gives `NaN`). -/
def updateSummary (convertedFiles : List ConvertedFile) : Option String := do
  let totalOriginal ← convertedFiles.foldlM (fun sum file => jsAdd sum file.originalSize) 0
  let totalConverted ← convertedFiles.foldlM (fun sum file => jsAdd sum file.convertedSize) 0
  let difference ← jsSub totalOriginal totalConverted
  let ratio ← jsDiv difference totalOriginal
  let percent ← jsMul ratio 100
  let totalSaved ← toFixed1 percent
  some (totalSaved ++ "%")

/-! ## Settings -/

/-- A value produced by `JSON.parse`.  An object is the list of its own properties;
its keys are distinct. -/
inductive Json where
  | null
  | bool (b : Bool)
  | number (x : ℚ)
  | string (s : String)
  | array (items : List Json)
  | object (properties : List (String × Json))

/-- The own properties of an object, as key and value pairs with distinct keys. -/
abbrev Properties := List (String × Json)

/-- Reading the property `key` of an object; `none` stands for `undefined`. -/
def getProperty (o : Properties) (key : String) : Option Json := List.lookup key o

/-- Defining the own property `key`: the value of an existing property is replaced,
a new property is added at the end. -/
def setProperty : Properties → String → Json → Properties
  | [], key, value => [(key, value)]
  | (k, v) :: rest, key, value =>
    if k = key then (k, value) :: rest else (k, v) :: setProperty rest key value

/-- The own enumerable properties copied by the spread `...value` in an object
literal: those of an object, the indexed elements of an array or string, none for
the other values. -/
def ownProperties : Json → Properties
  | Json.object properties => properties
  | Json.array items => items.enum.map fun iv => (toString iv.1, iv.2)
  | Json.string s => s.data.enum.map fun ic => (toString ic.1, Json.string (String.singleton ic.2))
  | _ => []

/-- One spread `...source` in an object literal: every property of the source is
defined on the object under construction, in order. -/
def spread (target source : Properties) : Properties :=
  source.foldl (fun o kv => setProperty o kv.1 kv.2) target

/-- The object `defaultSettings` of `loadSettings`; `0.8` is the nearest Number. -/
def defaultSettings : Properties :=
  [("quality", Json.number (roundBinary64 (8 / 10))),
    ("format", Json.string "webp"),
    ("maxWidth", Json.string ""),
    ("maxHeight", Json.string ""),
    ("maintainAspectRatio", Json.bool true),
    ("filePrefix", Json.string "converted_"),
    ("theme", Json.string "dark")]

/-- The method `loadSettings()`.  `getItem` is the outcome of
`localStorage.getItem('imageConverterSettings')`: an exception, `null` (`none`) or the
stored text; `jsonParse` is `JSON.parse`, which throws on a text that is not JSON. -/
def loadSettings (getItem : Except String (Option String))
    (jsonParse : String → Except String Json) : Properties :=
  match getItem with
  | Except.error _ => defaultSettings
  | Except.ok none => defaultSettings
  | Except.ok (some saved) =>
    -- `saved ? ... : defaultSettings`: the empty string is falsy
    if saved = "" then defaultSettings
    else
      match jsonParse saved with
      | Except.error _ => defaultSettings
      | Except.ok value => spread (spread [] defaultSettings) (ownProperties value)

/-! ## The wording of the specification -/

/-- The media types that the specification admits to the queue. -/
def acceptedTypes : List String := ["image/png", "image/jpeg", "image/jpg"]

/-- The files of a batch with an accepted type, in their original order. -/
def acceptedFiles (newFiles : List File) : List File :=
  newFiles.filter (fun file => decide (file.type ∈ acceptedTypes))

/-- The base name in the words of the specification: the name with its last `.`
and everything after it removed, and the whole name when it contains no `.`. -/
def removeFromLastDot (name : List Char) : List Char :=
  if '.' ∈ name then ((name.reverse.dropWhile (fun c => c != '.')).drop 1).reverse else name

/-- The records of the files whose conversion succeeds, in the order of the files. -/
def conversionResults (p : Platform) (c : Controls) (files : List File) : List ConvertedFile :=
  files.filterMap fun file =>
    match convertSingleImage p file c with
    | Except.ok result => some result
    | Except.error _ => none

/-- The messages reported for the files whose conversion fails, in the order of the
files. -/
def failureMessages (p : Platform) (c : Controls) (files : List File) : List String :=
  files.filterMap fun file =>
    match convertSingleImage p file c with
    | Except.ok _ => none
    | Except.error message => some ("Failed to convert " ++ file.name ++ ": " ++ message)

/-- The sum of the original sizes of the results. -/
def totalOriginalSize (results : List ConvertedFile) : ℕ :=
  (results.map ConvertedFile.originalSize).sum

/-- The sum of the converted sizes of the results. -/
def totalConvertedSize (results : List ConvertedFile) : ℕ :=
  (results.map ConvertedFile.convertedSize).sum

/-! ## Sample data -/

/-- A PNG photo of 500000 bytes. -/
def samplePhoto : File :=
  { name := "photo.png", size := 500000, type := "image/png", contents := [137, 80, 78, 71] }

/-- A file with an accepted type and no contents. -/
def emptyPhoto : File :=
  { name := "empty.png", size := 0, type := "image/png", contents := [] }

/-- A platform on which a file without contents does not load, every other file is
a 2000x1000 image, and the encoder halves the size. -/
def samplePlatform : Platform :=
  { loadImage := fun file => if file.contents = [] then none else some (2000, 1000)
    toBlob := fun file _ _ => some { size := file.size / 2, contents := file.contents }
    toDataURL := fun _ _ => "data:image/jpeg;base64," }

/-- The controls of the scenario of the specification: quality 0.8, `maxWidth` 1000,
no `maxHeight`, aspect ratio kept, the default prefix. -/
def sampleControls : Controls :=
  { quality := 4 / 5, maxWidth := some 1000, maxHeight := none, maintainAspectRatio := true,
    filePrefix := "converted_" }

/-- A result of 1000000 original and 400000 converted bytes. -/
def sampleResult : ConvertedFile :=
  { originalFile := samplePhoto, convertedBlob := { size := 400000, contents := [] },
    fileName := "converted_photo.webp", originalSize := 1000000, convertedSize := 400000,
    preview := "data:image/jpeg;base64," }

/-- A stored settings text with the single field `theme`. -/
def sampleStored : String := "\x7b\"theme\":\"light\"\x7d"

/-! ## Theorems -/

theorem roundHalfEven_intCast (n : ℤ) : roundHalfEven (n : ℚ) = n := by
  simp [roundHalfEven]

theorem floor_le_roundHalfEven (x : ℚ) : ⌊x⌋ ≤ roundHalfEven x := by
  unfold roundHalfEven
  simp only
  split_ifs <;> omega

theorem roundHalfEven_le_floor_succ (x : ℚ) : roundHalfEven x ≤ ⌊x⌋ + 1 := by
  unfold roundHalfEven
  simp only
  split_ifs <;> omega

theorem abs_sub_roundHalfEven (x : ℚ) : |x - roundHalfEven x| ≤ 1 / 2 := by
  have h1 := Int.floor_le x
  have h2 := Int.lt_floor_add_one x
  unfold roundHalfEven
  simp only
  split_ifs with h h' h'' <;> rw [abs_le] <;> constructor <;> push_cast <;> linarith

theorem roundHalfEven_mono {x y : ℚ} (h : x ≤ y) : roundHalfEven x ≤ roundHalfEven y := by
  have hf : ⌊x⌋ ≤ ⌊y⌋ := Int.floor_mono h
  rcases hf.lt_or_eq with hlt | heq
  · calc roundHalfEven x ≤ ⌊x⌋ + 1 := roundHalfEven_le_floor_succ x
      _ ≤ ⌊y⌋ := hlt
      _ ≤ roundHalfEven y := floor_le_roundHalfEven y
  · unfold roundHalfEven
    simp only
    rw [heq]
    split_ifs <;> first | omega | (exfalso; linarith)

theorem roundHalfEven_nonneg {x : ℚ} (h : 0 ≤ x) : 0 ≤ roundHalfEven x := by
  have := roundHalfEven_mono h
  rwa [show (0 : ℚ) = ((0 : ℤ) : ℚ) by simp, roundHalfEven_intCast] at this

theorem ulp_pos (q : ℚ) : 0 < ulp q := by
  unfold ulp
  positivity

theorem ulp_abs (q : ℚ) : ulp |q| = ulp q := by
  simp [ulp, binade]

theorem ulp_neg (q : ℚ) : ulp (-q) = ulp q := by
  simp [ulp, binade]

theorem roundBinary64_zero : roundBinary64 0 = 0 := by
  simp [roundBinary64, roundHalfEven]

theorem roundBinary64_of_nonneg {q : ℚ} (h : 0 ≤ q) :
    roundBinary64 q = roundHalfEven (q / ulp q) * ulp q := by
  simp [roundBinary64, not_lt.mpr h]

theorem roundBinary64_neg (q : ℚ) : roundBinary64 (-q) = -roundBinary64 q := by
  rcases lt_trichotomy q 0 with h | h | h
  · have h1 : ¬ (-q < 0) := by linarith
    simp [roundBinary64, h, h1, ulp_neg]
  · subst h
    simp [roundBinary64_zero]
  · have h1 : ¬ (q < 0) := by linarith
    have h2 : -q < 0 := by linarith
    simp [roundBinary64, h1, h2, ulp_neg]

theorem roundBinary64_nonneg {q : ℚ} (h : 0 ≤ q) : 0 ≤ roundBinary64 q := by
  rw [roundBinary64_of_nonneg h]
  have h1 : 0 ≤ q / ulp q := div_nonneg h (ulp_pos q).le
  have h2 : (0 : ℚ) ≤ roundHalfEven (q / ulp q) := by exact_mod_cast roundHalfEven_nonneg h1
  exact mul_nonneg h2 (ulp_pos q).le

theorem abs_roundBinary64 (q : ℚ) : |roundBinary64 q| = roundBinary64 |q| := by
  rcases le_total 0 q with h | h
  · rw [abs_of_nonneg h, abs_of_nonneg (roundBinary64_nonneg h)]
  · rw [abs_of_nonpos h, roundBinary64_neg, abs_of_nonpos]
    have := roundBinary64_nonneg (neg_nonneg.mpr h)
    rw [roundBinary64_neg] at this
    linarith

theorem lt_two_zpow_binade_succ (q : ℚ) : |q| < (2 : ℚ) ^ (binade q + 1) := by
  have h1 : |q| < ((2 : ℕ) : ℚ) ^ (Int.log 2 |q| + 1) :=
    Int.lt_zpow_succ_log_self (by norm_num) |q|
  have h2 : Int.log 2 |q| + 1 ≤ binade q + 1 := by
    unfold binade
    have := le_max_left (Int.log 2 |q|) (-1022)
    omega
  have h3 : ((2 : ℕ) : ℚ) ^ (Int.log 2 |q| + 1) ≤ (2 : ℚ) ^ (binade q + 1) := by
    rw [Nat.cast_ofNat]
    exact zpow_le_zpow_right₀ (by norm_num) h2
  exact lt_of_lt_of_le h1 h3

theorem binade_mono {x y : ℚ} (hx : 0 < |x|) (h : |x| ≤ |y|) : binade x ≤ binade y := by
  unfold binade
  exact max_le_max (Int.log_mono_right hx h) le_rfl

theorem two_zpow_binade_le {q : ℚ} (h : (2 : ℚ) ^ (-1022 : ℤ) ≤ |q|) :
    (2 : ℚ) ^ binade q ≤ |q| := by
  have hpos : 0 < |q| := lt_of_lt_of_le (by positivity) h
  have h1 : (-1022 : ℤ) ≤ Int.log 2 |q| := by
    rw [← Int.zpow_le_iff_le_log (by norm_num) hpos, Nat.cast_ofNat]
    exact h
  have h2 : binade q = Int.log 2 |q| := by
    unfold binade
    exact max_eq_left h1
  rw [h2]
  have := Int.zpow_log_le_self (R := ℚ) (b := 2) (by norm_num) hpos
  rwa [Nat.cast_ofNat] at this

theorem binade_of_bounds {q : ℚ} {e : ℤ} (he : -1022 ≤ e) (h1 : (2 : ℚ) ^ e ≤ |q|)
    (h2 : |q| < (2 : ℚ) ^ (e + 1)) : binade q = e := by
  have hpos : 0 < |q| := lt_of_lt_of_le (by positivity) h1
  have h3 : e ≤ Int.log 2 |q| := by
    rw [← Int.zpow_le_iff_le_log (by norm_num) hpos, Nat.cast_ofNat]
    exact h1
  have h4 : Int.log 2 |q| < e + 1 := by
    rw [← Int.lt_zpow_iff_log_lt (by norm_num) hpos, Nat.cast_ofNat]
    exact h2
  unfold binade
  rw [max_eq_left (by omega)]
  omega

theorem roundBinary64_le_next_binade {x : ℚ} (hx : 0 ≤ x) :
    roundBinary64 x ≤ (2 : ℚ) ^ (binade x + 1) := by
  rw [roundBinary64_of_nonneg hx]
  have hu := ulp_pos x
  have h1 : x / ulp x ≤ (((2 : ℤ) ^ 53 : ℤ) : ℚ) := by
    rw [div_le_iff₀ hu]
    have h2 := lt_two_zpow_binade_succ x
    rw [abs_of_nonneg hx] at h2
    have h3 : (((2 : ℤ) ^ 53 : ℤ) : ℚ) * ulp x = (2 : ℚ) ^ (binade x + 1) := by
      unfold ulp
      rw [show binade x + 1 = 53 + (binade x - 52) by ring, zpow_add₀ (by norm_num)]
      norm_num
    rw [h3]
    exact h2.le
  have h4 := roundHalfEven_mono h1
  rw [roundHalfEven_intCast] at h4
  have h5 : (roundHalfEven (x / ulp x) : ℚ) ≤ (2 : ℚ) ^ (53 : ℤ) := by
    have : (roundHalfEven (x / ulp x) : ℚ) ≤ (((2 : ℤ) ^ 53 : ℤ) : ℚ) := by exact_mod_cast h4
    refine le_trans this (le_of_eq ?_)
    norm_num
  calc (roundHalfEven (x / ulp x) : ℚ) * ulp x ≤ (2 : ℚ) ^ (53 : ℤ) * ulp x :=
        mul_le_mul_of_nonneg_right h5 hu.le
    _ = (2 : ℚ) ^ (binade x + 1) := by
        unfold ulp
        rw [← zpow_add₀ (by norm_num)]
        congr 1
        ring

theorem two_zpow_binade_le_roundBinary64 {y : ℚ} (hy : 0 ≤ y)
    (h : (2 : ℚ) ^ binade y ≤ y) : (2 : ℚ) ^ binade y ≤ roundBinary64 y := by
  rw [roundBinary64_of_nonneg hy]
  have hu := ulp_pos y
  have h0 : (((2 : ℤ) ^ 52 : ℤ) : ℚ) * ulp y = (2 : ℚ) ^ binade y := by
    unfold ulp
    rw [show (2 : ℚ) ^ binade y = (2 : ℚ) ^ (52 + (binade y - 52)) by congr 1; ring,
      zpow_add₀ (by norm_num)]
    norm_num
  have h1 : (((2 : ℤ) ^ 52 : ℤ) : ℚ) ≤ y / ulp y := by
    rw [le_div_iff₀ hu, h0]
    exact h
  have h4 := roundHalfEven_mono h1
  rw [roundHalfEven_intCast] at h4
  have h5 : (((2 : ℤ) ^ 52 : ℤ) : ℚ) ≤ (roundHalfEven (y / ulp y) : ℚ) := by exact_mod_cast h4
  calc (2 : ℚ) ^ binade y = (((2 : ℤ) ^ 52 : ℤ) : ℚ) * ulp y := h0.symm
    _ ≤ (roundHalfEven (y / ulp y) : ℚ) * ulp y := mul_le_mul_of_nonneg_right h5 hu.le

/-- Rounding to binary64 is monotone on the non-negative rationals. -/
theorem roundBinary64_mono {x y : ℚ} (hx : 0 ≤ x) (h : x ≤ y) :
    roundBinary64 x ≤ roundBinary64 y := by
  have hy : 0 ≤ y := le_trans hx h
  rcases hx.eq_or_lt with h0 | hpos
  · rw [← h0, roundBinary64_zero]
    exact roundBinary64_nonneg hy
  have hb : binade x ≤ binade y :=
    binade_mono (by rwa [abs_of_nonneg hx]) (by rwa [abs_of_nonneg hx, abs_of_nonneg hy])
  rcases hb.eq_or_lt with heq | hlt
  · have hu : ulp x = ulp y := by unfold ulp; rw [heq]
    rw [roundBinary64_of_nonneg hx, roundBinary64_of_nonneg hy, hu]
    have h1 : x / ulp y ≤ y / ulp y := div_le_div_of_nonneg_right h (ulp_pos y).le
    have h2 : (roundHalfEven (x / ulp y) : ℚ) ≤ roundHalfEven (y / ulp y) := by
      exact_mod_cast roundHalfEven_mono h1
    exact mul_le_mul_of_nonneg_right h2 (ulp_pos y).le
  · have h1 := roundBinary64_le_next_binade hx
    have h2 : (2 : ℚ) ^ (binade x + 1) ≤ (2 : ℚ) ^ binade y :=
      zpow_le_zpow_right₀ (by norm_num) (by omega)
    have h3 : (2 : ℚ) ^ binade y ≤ y := by
      have hlog : binade y = Int.log 2 |y| := by
        have hx' : -1022 ≤ binade x := le_max_right _ _
        unfold binade at hlt ⊢
        rcases max_cases (Int.log 2 |y|) (-1022) with ⟨h, _⟩ | ⟨h, _⟩
        · exact h
        · rw [h] at hlt
          unfold binade at hx'
          omega
      rw [hlog]
      have hypos : 0 < |y| := by rw [abs_of_nonneg hy]; linarith
      have := Int.zpow_log_le_self (R := ℚ) (b := 2) (by norm_num) hypos
      rw [Nat.cast_ofNat] at this
      nth_rewrite 2 [abs_of_nonneg hy] at this
      exact this
    have h4 := two_zpow_binade_le_roundBinary64 hy h3
    linarith

/-- A rational that is a whole multiple of the spacing of its binade is a binary64
value: rounding leaves it unchanged. -/
theorem roundBinary64_of_int_mul_ulp {q : ℚ} (h0 : 0 ≤ q) (m : ℤ) (h : q / ulp q = m) :
    roundBinary64 q = q := by
  rw [roundBinary64_of_nonneg h0, h, roundHalfEven_intCast, ← h]
  exact div_mul_cancel₀ q (ulp_pos q).ne'

/-- Every `m * 2 ^ k` with `m < 2 ^ 53` and `k ≥ -1074` is a binary64 value. -/
theorem roundBinary64_dyadic (m : ℕ) (k : ℤ) (hm : m < 2 ^ 53) (hk : -1074 ≤ k) :
    roundBinary64 ((m : ℚ) * (2 : ℚ) ^ k) = (m : ℚ) * (2 : ℚ) ^ k := by
  rcases Nat.eq_zero_or_pos m with h0 | hpos
  · subst h0
    simp [roundBinary64_zero]
  have h2k : (0 : ℚ) < (2 : ℚ) ^ k := by positivity
  have hq : (0 : ℚ) < (m : ℚ) * (2 : ℚ) ^ k := mul_pos (by exact_mod_cast hpos) h2k
  have hlt : (m : ℚ) * (2 : ℚ) ^ k < (2 : ℚ) ^ (53 + k) := by
    rw [zpow_add₀ (by norm_num)]
    have : (m : ℚ) < (2 : ℚ) ^ (53 : ℤ) := by
      have : (m : ℚ) < ((2 ^ 53 : ℕ) : ℚ) := by exact_mod_cast hm
      refine lt_of_lt_of_le this (le_of_eq ?_)
      norm_num
    exact mul_lt_mul_of_pos_right this h2k
  have hlog : Int.log 2 |(m : ℚ) * (2 : ℚ) ^ k| < 53 + k := by
    rw [← Int.lt_zpow_iff_log_lt (by norm_num) (abs_pos.mpr hq.ne'), Nat.cast_ofNat,
      abs_of_pos hq]
    exact hlt
  have hb : binade ((m : ℚ) * (2 : ℚ) ^ k) - 52 ≤ k := by
    unfold binade
    rcases max_cases (Int.log 2 |(m : ℚ) * (2 : ℚ) ^ k|) (-1022) with ⟨h, _⟩ | ⟨h, _⟩ <;>
      rw [h] <;> omega
  obtain ⟨n, hn⟩ := Int.eq_ofNat_of_zero_le (sub_nonneg.mpr hb)
  refine roundBinary64_of_int_mul_ulp hq.le ((m * 2 ^ n : ℕ) : ℤ) ?_
  unfold ulp
  rw [mul_div_assoc, ← zpow_sub₀ (by norm_num), hn]
  push_cast
  rw [zpow_natCast]

/-- A natural number below `2 ^ 53` is a binary64 value. -/
theorem roundBinary64_natCast (n : ℕ) (hn : n < 2 ^ 53) : roundBinary64 (n : ℚ) = n := by
  have := roundBinary64_dyadic n 0 hn (by norm_num)
  simpa using this

/-- Rounding a value of the normal range changes it by at most the relative
error `2 ^ (-53)`. -/
theorem abs_roundBinary64_sub_le {q : ℚ} (hq : (2 : ℚ) ^ (-1022 : ℤ) ≤ |q|) :
    |roundBinary64 q - q| ≤ |q| * (2 : ℚ) ^ (-53 : ℤ) := by
  have key : ∀ x : ℚ, 0 ≤ x → (2 : ℚ) ^ (-1022 : ℤ) ≤ |x| →
      |roundBinary64 x - x| ≤ |x| * (2 : ℚ) ^ (-53 : ℤ) := by
    intro x hx hn
    have hu := ulp_pos x
    rw [roundBinary64_of_nonneg hx]
    have h1 := abs_sub_roundHalfEven (x / ulp x)
    have h2 : |(roundHalfEven (x / ulp x) : ℚ) * ulp x - x| =
        |x / ulp x - roundHalfEven (x / ulp x)| * ulp x := by
      rw [abs_sub_comm, ← abs_of_pos hu, ← abs_mul, abs_of_pos hu, sub_mul,
        div_mul_cancel₀ x hu.ne']
    rw [h2]
    have h3 : ulp x * (1 / 2) = (2 : ℚ) ^ binade x * (2 : ℚ) ^ (-53 : ℤ) := by
      unfold ulp
      rw [← zpow_add₀ (by norm_num), show binade x + -53 = (binade x - 52) + -1 by ring,
        zpow_add₀ (by norm_num)]
      norm_num
    calc |x / ulp x - roundHalfEven (x / ulp x)| * ulp x ≤ 1 / 2 * ulp x :=
          mul_le_mul_of_nonneg_right h1 hu.le
      _ = (2 : ℚ) ^ binade x * (2 : ℚ) ^ (-53 : ℤ) := by rw [mul_comm, h3]
      _ ≤ |x| * (2 : ℚ) ^ (-53 : ℤ) :=
          mul_le_mul_of_nonneg_right (two_zpow_binade_le hn) (by positivity)
  rcases le_total 0 q with h | h
  · exact key q h hq
  · have := key (-q) (neg_nonneg.mpr h) (by rwa [abs_neg])
    rw [roundBinary64_neg, abs_neg] at this
    rwa [show roundBinary64 q - q = -(-roundBinary64 q - -q) by ring, abs_neg]

/-- No overflow: an exact result of magnitude at most `2 ^ 1023` rounds to a finite
Number. -/
theorem fl_eq_some {q : ℚ} (h : |q| ≤ (2 : ℚ) ^ (1023 : ℤ)) : fl q = some (roundBinary64 q) := by
  unfold fl
  rw [if_pos]
  rw [abs_roundBinary64]
  have h1 := roundBinary64_mono (abs_nonneg q) h
  have h2 : roundBinary64 ((2 : ℚ) ^ (1023 : ℤ)) = (2 : ℚ) ^ (1023 : ℤ) := by
    have := roundBinary64_dyadic 1 1023 (by norm_num) (by norm_num)
    simpa using this
  rw [h2] at h1
  refine le_trans h1 ?_
  unfold maxFinite
  norm_num

/-! ### `Math.round` -/

theorem mathRound_intCast (n : ℤ) : mathRound (n : ℚ) = n := by
  unfold mathRound
  rw [Int.floor_eq_iff]
  constructor <;> norm_num

theorem mathRound_natCast (n : ℕ) : mathRound (n : ℚ) = n := by
  have := mathRound_intCast (n : ℤ)
  simpa using this

theorem mathRound_le_of_le {x : ℚ} {n : ℤ} (h : x ≤ n) : mathRound x ≤ n := by
  unfold mathRound
  have : ⌊x + 1 / 2⌋ < n + 1 := by
    rw [Int.floor_lt]
    push_cast
    linarith
  omega

theorem abs_sub_mathRound (x : ℚ) : |x - mathRound x| ≤ 1 / 2 := by
  unfold mathRound
  have h1 := Int.floor_le (x + 1 / 2)
  have h2 := Int.lt_floor_add_one (x + 1 / 2)
  rw [abs_le]
  constructor <;> linarith

/-! ### The aspect ratio of an image -/

theorem roundBinary64_two_zpow (k : ℤ) (hk : -1074 ≤ k) :
    roundBinary64 ((2 : ℚ) ^ k) = (2 : ℚ) ^ k := by
  have := roundBinary64_dyadic 1 k (by norm_num) hk
  simpa using this

/-- The quotient of two positive integers below `2 ^ 53` is a finite, positive
Number between `2 ^ (-53)` and `2 ^ 53`. -/
theorem jsDiv_natCast (W H : ℕ) (hW : 0 < W) (hH : 0 < H) (bW : W < 2 ^ 53)
    (bH : H < 2 ^ 53) :
    jsDiv W H = some (roundBinary64 ((W : ℚ) / H)) ∧
      (2 : ℚ) ^ (-53 : ℤ) ≤ roundBinary64 ((W : ℚ) / H) ∧
      roundBinary64 ((W : ℚ) / H) ≤ (2 : ℚ) ^ (53 : ℤ) := by
  have hW' : (1 : ℚ) ≤ W := by exact_mod_cast hW
  have hH' : (1 : ℚ) ≤ H := by exact_mod_cast hH
  have bW' : (W : ℚ) ≤ (2 : ℚ) ^ (53 : ℤ) := by
    have : (W : ℚ) < ((2 ^ 53 : ℕ) : ℚ) := by exact_mod_cast bW
    refine le_trans this.le (le_of_eq ?_)
    norm_num
  have bH' : (H : ℚ) ≤ (2 : ℚ) ^ (53 : ℤ) := by
    have : (H : ℚ) < ((2 ^ 53 : ℕ) : ℚ) := by exact_mod_cast bH
    refine le_trans this.le (le_of_eq ?_)
    norm_num
  have hHpos : (0 : ℚ) < H := by linarith
  have hq0 : (0 : ℚ) ≤ (W : ℚ) / H := by positivity
  have hhi : (W : ℚ) / H ≤ (2 : ℚ) ^ (53 : ℤ) := by
    rw [div_le_iff₀ hHpos]
    calc (W : ℚ) ≤ (2 : ℚ) ^ (53 : ℤ) := bW'
      _ ≤ (2 : ℚ) ^ (53 : ℤ) * H := le_mul_of_one_le_right (by positivity) hH'
  have hlo : (2 : ℚ) ^ (-53 : ℤ) ≤ (W : ℚ) / H := by
    rw [le_div_iff₀ hHpos]
    calc (2 : ℚ) ^ (-53 : ℤ) * H ≤ (2 : ℚ) ^ (-53 : ℤ) * (2 : ℚ) ^ (53 : ℤ) :=
          mul_le_mul_of_nonneg_left bH' (by positivity)
      _ = 1 := by rw [← zpow_add₀ (by norm_num)]; norm_num
      _ ≤ W := hW'
  refine ⟨?_, ?_, ?_⟩
  · unfold jsDiv
    rw [if_neg hHpos.ne']
    apply fl_eq_some
    rw [abs_of_nonneg hq0]
    exact le_trans hhi (zpow_le_zpow_right₀ (by norm_num) (by norm_num))
  · have := roundBinary64_mono (by positivity) hlo
    rwa [roundBinary64_two_zpow _ (by norm_num)] at this
  · have := roundBinary64_mono hq0 hhi
    rwa [roundBinary64_two_zpow _ (by norm_num)] at this

/-- Dividing an integer bound by an aspect ratio gives a finite Number. -/
theorem jsDiv_bound_aspect (m : ℕ) (bm : m < 2 ^ 53) {a : ℚ}
    (ha : (2 : ℚ) ^ (-53 : ℤ) ≤ a) :
    jsDiv m a = some (roundBinary64 ((m : ℚ) / a)) := by
  have hapos : 0 < a := lt_of_lt_of_le (by positivity) ha
  have bm' : (m : ℚ) ≤ (2 : ℚ) ^ (53 : ℤ) := by
    have : (m : ℚ) < ((2 ^ 53 : ℕ) : ℚ) := by exact_mod_cast bm
    refine le_trans this.le (le_of_eq ?_)
    norm_num
  unfold jsDiv
  rw [if_neg hapos.ne']
  apply fl_eq_some
  have h0 : (0 : ℚ) ≤ (m : ℚ) / a := by positivity
  rw [abs_of_nonneg h0, div_le_iff₀ hapos]
  calc (m : ℚ) ≤ (2 : ℚ) ^ (53 : ℤ) := bm'
    _ = (2 : ℚ) ^ (106 : ℤ) * (2 : ℚ) ^ (-53 : ℤ) := by
        rw [← zpow_add₀ (by norm_num)]; norm_num
    _ ≤ (2 : ℚ) ^ (1023 : ℤ) * a :=
        mul_le_mul (zpow_le_zpow_right₀ (by norm_num) (by norm_num)) ha (by positivity)
          (by positivity)

/-- Multiplying an integer bound by an aspect ratio gives a finite Number. -/
theorem jsMul_bound_aspect (m : ℕ) (bm : m < 2 ^ 53) {a : ℚ} (h0 : 0 ≤ a)
    (ha : a ≤ (2 : ℚ) ^ (53 : ℤ)) :
    jsMul m a = some (roundBinary64 ((m : ℚ) * a)) := by
  have bm' : (m : ℚ) ≤ (2 : ℚ) ^ (53 : ℤ) := by
    have : (m : ℚ) < ((2 ^ 53 : ℕ) : ℚ) := by exact_mod_cast bm
    refine le_trans this.le (le_of_eq ?_)
    norm_num
  unfold jsMul
  apply fl_eq_some
  have hm0 : (0 : ℚ) ≤ m := by positivity
  rw [abs_of_nonneg (mul_nonneg hm0 h0)]
  calc (m : ℚ) * a ≤ (2 : ℚ) ^ (53 : ℤ) * (2 : ℚ) ^ (53 : ℤ) :=
        mul_le_mul bm' ha h0 (by positivity)
    _ = (2 : ℚ) ^ (106 : ℤ) := by rw [← zpow_add₀ (by norm_num)]; norm_num
    _ ≤ (2 : ℚ) ^ (1023 : ℤ) := zpow_le_zpow_right₀ (by norm_num) (by norm_num)

/-- C1. Box fit: with the aspect ratio kept and both bounds set to positive integers,
`calculateNewDimensions` returns a pair `(width, height)` with `width ≤ maxWidth` and
`height ≤ maxHeight`, for all positive integer arguments that are exact Numbers
(below `2 ^ 53`). -/
theorem calculateNewDimensions_box_fit (origW origH maxW maxH : ℕ)
    (hW : 0 < origW) (hH : 0 < origH) (hmW : 0 < maxW) (hmH : 0 < maxH)
    (bW : origW < 2 ^ 53) (bH : origH < 2 ^ 53) (bmW : maxW < 2 ^ 53) (bmH : maxH < 2 ^ 53) :
    ∃ w h : ℤ, calculateNewDimensions origW origH (some (maxW : ℚ)) (some (maxH : ℚ)) true
        = some (w, h) ∧ w ≤ maxW ∧ h ≤ maxH := by
  obtain ⟨ha, hlo, hhi⟩ := jsDiv_natCast origW origH hW hH bW bH
  have hapos : 0 < roundBinary64 ((origW : ℚ) / origH) := lt_of_lt_of_le (by positivity) hlo
  have hq := jsDiv_bound_aspect maxW bmW hlo
  have hw := jsMul_bound_aspect maxH bmH hapos.le hhi
  have hmW' : (maxW : ℚ) ≠ 0 := by exact_mod_cast hmW.ne'
  have hmH' : (maxH : ℚ) ≠ 0 := by exact_mod_cast hmH.ne'
  by_cases hc : roundBinary64 ((maxW : ℚ) / roundBinary64 ((origW : ℚ) / origH)) ≤ maxH
  · refine ⟨mathRound maxW, mathRound (roundBinary64 ((maxW : ℚ) /
      roundBinary64 ((origW : ℚ) / origH))), ?_, ?_, ?_⟩
    · simp [calculateNewDimensions, truthy, hmW', hmH', ha, hq, hc]
    · rw [mathRound_natCast]
    · exact mathRound_le_of_le (by exact_mod_cast hc)
  · refine ⟨mathRound (roundBinary64 ((maxH : ℚ) * roundBinary64 ((origW : ℚ) / origH))),
      mathRound maxH, ?_, ?_, ?_⟩
    · simp [calculateNewDimensions, truthy, hmW', hmH', ha, hq, hc, hw]
    · apply mathRound_le_of_le
      have h1 : ¬ ((maxW : ℚ) / roundBinary64 ((origW : ℚ) / origH) ≤ maxH) := by
        intro hle
        apply hc
        have := roundBinary64_mono (by positivity) hle
        rwa [roundBinary64_natCast maxH bmH] at this
      have h2 : (maxH : ℚ) * roundBinary64 ((origW : ℚ) / origH) ≤ maxW := by
        rw [not_le, lt_div_iff₀ hapos] at h1
        exact h1.le
      have := roundBinary64_mono (by positivity) h2
      rw [roundBinary64_natCast maxW bmW] at this
      exact_mod_cast this
    · rw [mathRound_natCast]

/-! ### Accuracy of the derived axis -/

/-- Relative-error form of rounding in the normal range. -/
theorem roundBinary64_rel {q : ℚ} (hq : (2 : ℚ) ^ (-1022 : ℤ) ≤ q) :
    ∃ δ : ℚ, |δ| ≤ (2 : ℚ) ^ (-53 : ℤ) ∧ roundBinary64 q = q * (1 + δ) := by
  have hpos : 0 < q := lt_of_lt_of_le (by positivity) hq
  have h := abs_roundBinary64_sub_le (q := q) (by rwa [abs_of_pos hpos])
  rw [abs_of_pos hpos] at h
  refine ⟨(roundBinary64 q - q) / q, ?_, ?_⟩
  · rw [abs_div, abs_of_pos hpos, div_le_iff₀ hpos]
    linarith
  · field_simp

theorem rel_div_close {x d1 d2 u : ℚ} (hx : 0 ≤ x) (h1 : |d1| ≤ u) (h2 : |d2| ≤ u)
    (hu : u ≤ 1 / 2) : |x / (1 + d1) * (1 + d2) - x| ≤ 4 * u * x := by
  rw [abs_le] at h1 h2
  have hd : 0 < 1 + d1 := by linarith
  have e : x / (1 + d1) * (1 + d2) - x = x * (d2 - d1) / (1 + d1) := by
    field_simp
    ring
  rw [e, abs_div, abs_of_pos hd, div_le_iff₀ hd, abs_mul, abs_of_nonneg hx]
  have h3 : |d2 - d1| ≤ 2 * u := by
    rw [abs_le]
    constructor <;> linarith
  have hu0 : 0 ≤ u := by linarith
  calc x * |d2 - d1| ≤ x * (2 * u) := mul_le_mul_of_nonneg_left h3 hx
    _ = 4 * u * x * (1 / 2) := by ring
    _ ≤ 4 * u * x * (1 + d1) :=
        mul_le_mul_of_nonneg_left (by linarith) (by positivity)

theorem rel_mul_close {x d1 d2 u : ℚ} (hx : 0 ≤ x) (h1 : |d1| ≤ u) (h2 : |d2| ≤ u)
    (hu : u ≤ 1 / 2) : |x * (1 + d1) * (1 + d2) - x| ≤ 4 * u * x := by
  have hu0 : 0 ≤ u := le_trans (abs_nonneg d1) h1
  have e : x * (1 + d1) * (1 + d2) - x = x * (d1 + d2 + d1 * d2) := by ring
  rw [e, abs_mul, abs_of_nonneg hx, mul_comm (4 * u) x]
  apply mul_le_mul_of_nonneg_left _ hx
  have h3 : |d1 * d2| ≤ u * u := by
    rw [abs_mul]
    exact mul_le_mul h1 h2 (abs_nonneg _) hu0
  have h4 : u * u ≤ u := by nlinarith
  calc |d1 + d2 + d1 * d2| ≤ |d1 + d2| + |d1 * d2| := abs_add _ _
    _ ≤ |d1| + |d2| + |d1 * d2| := by linarith [abs_add d1 d2]
    _ ≤ 4 * u := by linarith

/-- An integer within `1 / 2` of `x` is `Math.round` of `x`, unless `x` lies exactly
halfway between two integers and it is the lower one. -/
theorem eq_mathRound_or_half {x : ℚ} {k : ℤ} (h : |x - k| ≤ 1 / 2) :
    k = mathRound x ∨ (k : ℚ) = x - 1 / 2 := by
  rw [abs_le] at h
  rcases h.2.eq_or_lt with he | hl
  · right
    linarith
  · left
    unfold mathRound
    symm
    rw [Int.floor_eq_iff]
    constructor <;> linarith

/-- `Math.round` of an approximation of the fraction `p / d` that is closer to it
than half the spacing `1 / d` is an integer nearest to `p / d`. -/
theorem mathRound_nearest (p d : ℕ) (hd : 0 < d) (hp : p < 2 ^ 50) (y : ℚ)
    (h : |y - (p : ℚ) / d| ≤ 4 * (2 : ℚ) ^ (-53 : ℤ) * ((p : ℚ) / d)) :
    |(p : ℚ) / d - mathRound y| ≤ 1 / 2 := by
  have hd' : (0 : ℚ) < d := by exact_mod_cast hd
  have hp' : (p : ℚ) < 2 ^ 50 := by exact_mod_cast hp
  have herr : 4 * (2 : ℚ) ^ (-53 : ℤ) * ((p : ℚ) / d) < 1 / (2 * d) := by
    rw [show 4 * (2 : ℚ) ^ (-53 : ℤ) * ((p : ℚ) / d) = (4 * (2 : ℚ) ^ (-53 : ℤ) * p) / d by ring,
      div_lt_div_iff₀ hd' (by positivity)]
    have : 4 * (2 : ℚ) ^ (-53 : ℤ) * p * 2 < 1 := by
      have e : (4 : ℚ) * (2 : ℚ) ^ (-53 : ℤ) * 2 = 1 / 2 ^ 50 := by norm_num
      have h50 : (0 : ℚ) < 2 ^ 50 := by positivity
      calc 4 * (2 : ℚ) ^ (-53 : ℤ) * p * 2 = (4 * (2 : ℚ) ^ (-53 : ℤ) * 2) * p := by ring
        _ = p / 2 ^ 50 := by rw [e]; ring
        _ < 1 := by rw [div_lt_one h50]; exact hp'
    nlinarith
  have hy := lt_of_le_of_lt h herr
  rw [abs_lt] at hy
  have hr := abs_sub_mathRound y
  rw [abs_le] at hr
  set k := mathRound y with hk
  -- clear denominators: `2 * p` lies strictly between `2 d k - d - 1` and `2 d k + d + 1`
  have e1 : (p : ℚ) / d * (2 * d) = 2 * p := by field_simp; ring
  have e2 : 1 / (2 * (d : ℚ)) * (2 * d) = 1 := by field_simp
  have hd2 : (0 : ℚ) < 2 * d := by positivity
  have u1 : (2 * p : ℚ) < 2 * d * k + d + 1 := by
    have : (p : ℚ) / d * (2 * d) < ((k : ℚ) + 1 / 2 + 1 / (2 * d)) * (2 * d) :=
      mul_lt_mul_of_pos_right (by linarith) hd2
    rw [e1, add_mul, e2] at this
    linarith
  have u2 : (2 * d * k : ℚ) - d - 1 < 2 * p := by
    have : ((k : ℚ) - 1 / 2 - 1 / (2 * d)) * (2 * d) < (p : ℚ) / d * (2 * d) :=
      mul_lt_mul_of_pos_right (by linarith) hd2
    rw [e1, sub_mul, e2] at this
    linarith
  have v1 : (2 * p : ℤ) < 2 * d * k + d + 1 := by exact_mod_cast u1
  have v2 : (2 * d * k : ℤ) - d - 1 < 2 * p := by exact_mod_cast u2
  have w1 : (2 * p : ℤ) ≤ 2 * d * k + d := by omega
  have w2 : (2 * d * k : ℤ) - d ≤ 2 * p := by omega
  have w1' : (2 * p : ℚ) ≤ 2 * d * k + d := by exact_mod_cast w1
  have w2' : (2 * d * k : ℚ) - d ≤ 2 * p := by exact_mod_cast w2
  rw [abs_le]
  constructor
  · rw [le_sub_iff_add_le, le_div_iff₀ hd']
    nlinarith
  · rw [sub_le_iff_le_add, div_le_iff₀ hd']
    nlinarith

theorem natCast_le_two_pow_53 {n : ℕ} (h : n < 2 ^ 53) : (n : ℚ) ≤ (2 : ℚ) ^ (53 : ℤ) := by
  have : (n : ℚ) < ((2 ^ 53 : ℕ) : ℚ) := by exact_mod_cast h
  refine le_trans this.le (le_of_eq ?_)
  norm_num

/-- The height derived from a width bound, `maxWidth / (W / H)` in binary64, is
within relative error `4 * 2 ^ (-53)` of the exact `maxWidth * H / W`. -/
theorem height_from_width_close (W H m : ℕ) (hW : 0 < W) (hH : 0 < H) (hm : 0 < m)
    (bW : W < 2 ^ 53) (bH : H < 2 ^ 53) :
    |roundBinary64 ((m : ℚ) / roundBinary64 ((W : ℚ) / H)) - ((m * H : ℕ) : ℚ) / W| ≤
      4 * (2 : ℚ) ^ (-53 : ℤ) * (((m * H : ℕ) : ℚ) / W) := by
  obtain ⟨-, hlo, hhi⟩ := jsDiv_natCast W H hW hH bW bH
  have hW' : (0 : ℚ) < W := by exact_mod_cast hW
  have hH' : (0 : ℚ) < H := by exact_mod_cast hH
  have hm' : (1 : ℚ) ≤ m := by exact_mod_cast hm
  have hr : (2 : ℚ) ^ (-1022 : ℤ) ≤ (W : ℚ) / H := by
    have h1 : (2 : ℚ) ^ (-53 : ℤ) ≤ (W : ℚ) / H := by
      rw [le_div_iff₀ hH']
      calc (2 : ℚ) ^ (-53 : ℤ) * H ≤ (2 : ℚ) ^ (-53 : ℤ) * (2 : ℚ) ^ (53 : ℤ) :=
            mul_le_mul_of_nonneg_left (natCast_le_two_pow_53 bH) (by positivity)
        _ = 1 := by rw [← zpow_add₀ (by norm_num)]; norm_num
        _ ≤ W := by exact_mod_cast hW
    exact le_trans (zpow_le_zpow_right₀ (by norm_num) (by norm_num)) h1
  obtain ⟨d1, hd1, e1⟩ := roundBinary64_rel hr
  have hapos : 0 < roundBinary64 ((W : ℚ) / H) := lt_of_lt_of_le (by positivity) hlo
  have hq : (2 : ℚ) ^ (-1022 : ℤ) ≤ (m : ℚ) / roundBinary64 ((W : ℚ) / H) := by
    rw [le_div_iff₀ hapos]
    calc (2 : ℚ) ^ (-1022 : ℤ) * roundBinary64 ((W : ℚ) / H)
        ≤ (2 : ℚ) ^ (-1022 : ℤ) * (2 : ℚ) ^ (53 : ℤ) :=
          mul_le_mul_of_nonneg_left hhi (by positivity)
      _ = (2 : ℚ) ^ (-969 : ℤ) := by rw [← zpow_add₀ (by norm_num)]; norm_num
      _ ≤ (2 : ℚ) ^ (0 : ℤ) := zpow_le_zpow_right₀ (by norm_num) (by norm_num)
      _ = 1 := by norm_num
      _ ≤ m := hm'
  obtain ⟨d2, hd2, e2⟩ := roundBinary64_rel hq
  have hd1' := abs_le.mp hd1
  have h53 : (2 : ℚ) ^ (-53 : ℤ) ≤ 1 / 2 := by norm_num
  have hne : (1 : ℚ) + d1 ≠ 0 := by
    have h1 := hd1'.1
    norm_num at h1
    intro h0
    linarith
  have key : roundBinary64 ((m : ℚ) / roundBinary64 ((W : ℚ) / H)) =
      ((m * H : ℕ) : ℚ) / W / (1 + d1) * (1 + d2) := by
    rw [e2, e1]
    push_cast
    field_simp
  rw [key]
  exact rel_div_close (by positivity) hd1 hd2 h53

/-- The width derived from a height bound, `maxHeight * (W / H)` in binary64, is
within relative error `4 * 2 ^ (-53)` of the exact `maxHeight * W / H`. -/
theorem width_from_height_close (W H m : ℕ) (hW : 0 < W) (hH : 0 < H) (hm : 0 < m)
    (bW : W < 2 ^ 53) (bH : H < 2 ^ 53) :
    |roundBinary64 ((m : ℚ) * roundBinary64 ((W : ℚ) / H)) - ((m * W : ℕ) : ℚ) / H| ≤
      4 * (2 : ℚ) ^ (-53 : ℤ) * (((m * W : ℕ) : ℚ) / H) := by
  obtain ⟨-, hlo, hhi⟩ := jsDiv_natCast W H hW hH bW bH
  have hW' : (0 : ℚ) < W := by exact_mod_cast hW
  have hH' : (0 : ℚ) < H := by exact_mod_cast hH
  have hm' : (1 : ℚ) ≤ m := by exact_mod_cast hm
  have hr : (2 : ℚ) ^ (-1022 : ℤ) ≤ (W : ℚ) / H := by
    have h1 : (2 : ℚ) ^ (-53 : ℤ) ≤ (W : ℚ) / H := by
      rw [le_div_iff₀ hH']
      calc (2 : ℚ) ^ (-53 : ℤ) * H ≤ (2 : ℚ) ^ (-53 : ℤ) * (2 : ℚ) ^ (53 : ℤ) :=
            mul_le_mul_of_nonneg_left (natCast_le_two_pow_53 bH) (by positivity)
        _ = 1 := by rw [← zpow_add₀ (by norm_num)]; norm_num
        _ ≤ W := by exact_mod_cast hW
    exact le_trans (zpow_le_zpow_right₀ (by norm_num) (by norm_num)) h1
  obtain ⟨d1, hd1, e1⟩ := roundBinary64_rel hr
  have hq : (2 : ℚ) ^ (-1022 : ℤ) ≤ (m : ℚ) * roundBinary64 ((W : ℚ) / H) := by
    calc (2 : ℚ) ^ (-1022 : ℤ) ≤ (2 : ℚ) ^ (-53 : ℤ) :=
          zpow_le_zpow_right₀ (by norm_num) (by norm_num)
      _ = 1 * (2 : ℚ) ^ (-53 : ℤ) := by ring
      _ ≤ (m : ℚ) * roundBinary64 ((W : ℚ) / H) :=
          mul_le_mul hm' hlo (by positivity) (by positivity)
  obtain ⟨d2, hd2, e2⟩ := roundBinary64_rel hq
  have h53 : (2 : ℚ) ^ (-53 : ℤ) ≤ 1 / 2 := by norm_num
  have key : roundBinary64 ((m : ℚ) * roundBinary64 ((W : ℚ) / H)) =
      ((m * W : ℕ) : ℚ) / H * (1 + d1) * (1 + d2) := by
    rw [e2, e1]
    push_cast
    field_simp
    left
    ring
  rw [key]
  exact rel_mul_close (by positivity) hd1 hd2 h53

/-! ### Evaluating a rounding -/

theorem roundHalfEven_eq_of_abs_lt {x : ℚ} {n : ℤ} (h : |x - n| < 1 / 2) :
    roundHalfEven x = n := by
  have h1 := abs_sub_roundHalfEven x
  rw [abs_lt] at h
  rw [abs_le] at h1
  have h2 : ((roundHalfEven x : ℤ) : ℚ) < (n : ℚ) + 1 := by linarith
  have h3 : (n : ℚ) - 1 < ((roundHalfEven x : ℤ) : ℚ) := by linarith
  have h2' : roundHalfEven x < n + 1 := by exact_mod_cast h2
  have h3' : n - 1 < roundHalfEven x := by exact_mod_cast h3
  omega

/-- The binary64 value of a positive `q` of binade `e` is `n * 2 ^ (e - 52)` when
`n` is the integer strictly nearest to `q / 2 ^ (e - 52)`. -/
theorem roundBinary64_eq_of_near {q : ℚ} (e n : ℤ) (he : -1022 ≤ e)
    (h1 : (2 : ℚ) ^ e ≤ q) (h2 : q < (2 : ℚ) ^ (e + 1))
    (h3 : |q / (2 : ℚ) ^ (e - 52) - n| < 1 / 2) :
    roundBinary64 q = n * (2 : ℚ) ^ (e - 52) := by
  have hq : 0 < q := lt_of_lt_of_le (by positivity) h1
  have hb : binade q = e :=
    binade_of_bounds he (by rwa [abs_of_pos hq]) (by rwa [abs_of_pos hq])
  rw [roundBinary64_of_nonneg hq.le]
  unfold ulp
  rw [hb, roundHalfEven_eq_of_abs_lt h3]

theorem fl_eq_of_near {q : ℚ} (e n : ℤ) (he : -1022 ≤ e) (he' : e ≤ 1022)
    (h1 : (2 : ℚ) ^ e ≤ q) (h2 : q < (2 : ℚ) ^ (e + 1))
    (h3 : |q / (2 : ℚ) ^ (e - 52) - n| < 1 / 2) :
    fl q = some (n * (2 : ℚ) ^ (e - 52)) := by
  have hq : 0 < q := lt_of_lt_of_le (by positivity) h1
  rw [fl_eq_some, roundBinary64_eq_of_near e n he h1 h2 h3]
  rw [abs_of_pos hq]
  exact le_trans h2.le (zpow_le_zpow_right₀ (by norm_num) (by omega))

theorem fl_natCast (n : ℕ) (hn : n < 2 ^ 53) : fl (n : ℚ) = some (n : ℚ) := by
  rw [fl_eq_some, roundBinary64_natCast n hn]
  rw [abs_of_nonneg (by positivity)]
  exact le_trans (natCast_le_two_pow_53 hn) (zpow_le_zpow_right₀ (by norm_num) (by norm_num))

theorem mathRound_eq_iff {x : ℚ} {k : ℤ} :
    mathRound x = k ↔ (k : ℚ) - 1 / 2 ≤ x ∧ x < (k : ℚ) + 1 / 2 := by
  unfold mathRound
  rw [Int.floor_eq_iff]
  constructor <;> rintro ⟨h1, h2⟩ <;> constructor <;> linarith

/-! ### Claims on `calculateNewDimensions` -/

theorem calculateNewDimensions_box_fit_witness :
    (0 < 2000 ∧ 0 < 1000 ∧ 0 < 800 ∧ 0 < 600) ∧
      ∃ w h : ℤ, calculateNewDimensions (2000 : ℕ) (1000 : ℕ) (some ((800 : ℕ) : ℚ))
        (some ((600 : ℕ) : ℚ)) true = some (w, h) ∧ w ≤ (800 : ℕ) ∧ h ≤ (600 : ℕ) :=
  ⟨by decide, calculateNewDimensions_box_fit 2000 1000 800 600 (by decide) (by decide)
    (by decide) (by decide) (by norm_num) (by norm_num) (by norm_num) (by norm_num)⟩

/-- C2, as stated, fails.  A 3x2 image fitted into a 1x1 box comes out as 1x1:
`Math.round(1 / 1)` is 1 while `Math.round(3 / 2)` is 2 (both quotients are exact in
binary64).  A 100x1 image fitted into a 1x1 box comes out with height 0. -/
theorem calculateNewDimensions_aspect_counterexample :
    calculateNewDimensions 3 2 (some 1) (some 1) true = some (1, 1) ∧
      mathRound ((1 : ℚ) / 1) = 1 ∧ mathRound ((3 : ℚ) / 2) = 2 ∧
      calculateNewDimensions 100 1 (some 1) (some 1) true = some (1, 0) := by
  have a1 : jsDiv 3 2 = some (3 / 2) := by
    have h := fl_eq_of_near (q := (3 : ℚ) / 2) 0 6755399441055744 (by norm_num) (by norm_num)
      (by norm_num) (by norm_num) (by norm_num)
    unfold jsDiv
    rw [if_neg (by norm_num), h]
    norm_num
  have q1 : jsDiv 1 (3 / 2) = some (6004799503160661 * (2 : ℚ) ^ (-53 : ℤ)) := by
    have h := fl_eq_of_near (q := (1 : ℚ) / (3 / 2)) (-1) 6004799503160661 (by norm_num)
      (by norm_num) (by norm_num) (by norm_num) (by norm_num [abs_lt])
    unfold jsDiv
    rw [if_neg (by norm_num), h]
    norm_num
  have a2 : jsDiv 100 1 = some 100 := by
    have h := fl_natCast 100 (by norm_num)
    unfold jsDiv
    rw [if_neg (by norm_num)]
    simpa using h
  have q2 : jsDiv 1 100 = some (5764607523034235 * (2 : ℚ) ^ (-59 : ℤ)) := by
    have h := fl_eq_of_near (q := (1 : ℚ) / 100) (-7) 5764607523034235 (by norm_num)
      (by norm_num) (by norm_num) (by norm_num) (by norm_num [abs_lt])
    unfold jsDiv
    rw [if_neg (by norm_num), h]
    norm_num
  have r1 : mathRound (1 : ℚ) = 1 := by rw [mathRound_eq_iff]; norm_num
  have r2 : mathRound (6004799503160661 * (2 : ℚ) ^ (-53 : ℤ)) = 1 := by
    rw [mathRound_eq_iff]; norm_num
  have r3 : mathRound (5764607523034235 * (2 : ℚ) ^ (-59 : ℤ)) = 0 := by
    rw [mathRound_eq_iff]; norm_num
  have c1 : (6004799503160661 * (2 : ℚ) ^ (-53 : ℤ)) ≤ 1 := by norm_num
  have c2 : (5764607523034235 * (2 : ℚ) ^ (-59 : ℤ)) ≤ 1 := by norm_num
  refine ⟨?_, ?_, ?_, ?_⟩
  · simp only [calculateNewDimensions, truthy, a1, q1, Option.bind_eq_bind, Option.some_bind,
      if_true, c1, r1, r2]
    simp
  · rw [mathRound_eq_iff]; norm_num
  · rw [mathRound_eq_iff]; norm_num
  · simp only [calculateNewDimensions, truthy, a2, q2, Option.bind_eq_bind, Option.some_bind,
      if_true, c2, r1, r3]
    simp

theorem mul_lt_two_pow_50 {a b : ℕ} (ha : a < 2 ^ 25) (hb : b < 2 ^ 25) : a * b < 2 ^ 50 := by
  have : a * b < 2 ^ 25 * 2 ^ 25 := Nat.mul_lt_mul'' ha hb
  calc a * b < 2 ^ 25 * 2 ^ 25 := this
    _ = 2 ^ 50 := by norm_num

theorem lt_two_pow_53_of_lt {a : ℕ} (ha : a < 2 ^ 25) : a < 2 ^ 53 :=
  lt_trans ha (by norm_num)

/-- C2, amended. With the aspect ratio kept and both bounds set, for positive
integer arguments below `2 ^ 25`, one axis of the result equals its bound and the
other axis is an integer nearest to the exact aspect-preserving length:
`w = maxW` and `|maxW * origH / origW - h| ≤ 1 / 2`, or `h = maxH` and
`|maxH * origW / origH - w| ≤ 1 / 2`. -/
theorem calculateNewDimensions_aspect_nearest (origW origH maxW maxH : ℕ)
    (hW : 0 < origW) (hH : 0 < origH) (hmW : 0 < maxW) (hmH : 0 < maxH)
    (bW : origW < 2 ^ 25) (bH : origH < 2 ^ 25) (bmW : maxW < 2 ^ 25) (bmH : maxH < 2 ^ 25) :
    ∃ w h : ℤ, calculateNewDimensions origW origH (some (maxW : ℚ)) (some (maxH : ℚ)) true
        = some (w, h) ∧
      ((w = maxW ∧ |((maxW * origH : ℕ) : ℚ) / origW - h| ≤ 1 / 2) ∨
        (h = maxH ∧ |((maxH * origW : ℕ) : ℚ) / origH - w| ≤ 1 / 2)) := by
  have bW' := lt_two_pow_53_of_lt bW
  have bH' := lt_two_pow_53_of_lt bH
  have bmW' := lt_two_pow_53_of_lt bmW
  have bmH' := lt_two_pow_53_of_lt bmH
  obtain ⟨ha, hlo, hhi⟩ := jsDiv_natCast origW origH hW hH bW' bH'
  have hapos : 0 < roundBinary64 ((origW : ℚ) / origH) := lt_of_lt_of_le (by positivity) hlo
  have hq := jsDiv_bound_aspect maxW bmW' hlo
  have hw := jsMul_bound_aspect maxH bmH' hapos.le hhi
  have hmW' : (maxW : ℚ) ≠ 0 := by exact_mod_cast hmW.ne'
  have hmH' : (maxH : ℚ) ≠ 0 := by exact_mod_cast hmH.ne'
  by_cases hc : roundBinary64 ((maxW : ℚ) / roundBinary64 ((origW : ℚ) / origH)) ≤ maxH
  · refine ⟨mathRound maxW, mathRound (roundBinary64 ((maxW : ℚ) /
      roundBinary64 ((origW : ℚ) / origH))), ?_, Or.inl ⟨mathRound_natCast maxW, ?_⟩⟩
    · simp [calculateNewDimensions, truthy, hmW', hmH', ha, hq, hc]
    · exact mathRound_nearest _ _ hW (mul_lt_two_pow_50 bmW bH) _
        (height_from_width_close origW origH maxW hW hH hmW bW' bH')
  · refine ⟨mathRound (roundBinary64 ((maxH : ℚ) * roundBinary64 ((origW : ℚ) / origH))),
      mathRound maxH, ?_, Or.inr ⟨mathRound_natCast maxH, ?_⟩⟩
    · simp [calculateNewDimensions, truthy, hmW', hmH', ha, hq, hc, hw]
    · exact mathRound_nearest _ _ hH (mul_lt_two_pow_50 bmH bW) _
        (width_from_height_close origW origH maxH hW hH hmH bW' bH')

theorem calculateNewDimensions_aspect_nearest_witness :
    (0 < 1920 ∧ 0 < 1080 ∧ 0 < 800 ∧ 0 < 600) ∧
      ∃ w h : ℤ, calculateNewDimensions (1920 : ℕ) (1080 : ℕ) (some ((800 : ℕ) : ℚ))
          (some ((600 : ℕ) : ℚ)) true = some (w, h) ∧
        ((w = (800 : ℕ) ∧ |((800 * 1080 : ℕ) : ℚ) / (1920 : ℕ) - h| ≤ 1 / 2) ∨
          (h = (600 : ℕ) ∧ |((600 * 1920 : ℕ) : ℚ) / (1080 : ℕ) - w| ≤ 1 / 2)) :=
  ⟨by decide, calculateNewDimensions_aspect_nearest 1920 1080 800 600 (by decide) (by decide)
    (by decide) (by decide) (by norm_num) (by norm_num) (by norm_num) (by norm_num)⟩

/-- C7, as stated, fails. For a 2x75 image and `maxWidth = 3` alone the exact height
is `3 * 75 / 2 = 112.5`, which rounds (halves up) to 113; the code returns 112,
because `3 / (2 / 75)` evaluates in binary64 to a Number just below 112.5. -/
theorem calculateNewDimensions_single_bound_counterexample :
    calculateNewDimensions 2 75 (some 3) none true = some (3, 112) ∧
      mathRound ((3 : ℚ) * 75 / 2) = 113 := by
  have a1 : jsDiv 2 75 = some (7686143364045647 * (2 : ℚ) ^ (-58 : ℤ)) := by
    have h := fl_eq_of_near (q := (2 : ℚ) / 75) (-6) 7686143364045647 (by norm_num)
      (by norm_num) (by norm_num) (by norm_num) (by norm_num [abs_lt])
    unfold jsDiv
    rw [if_neg (by norm_num), h]
    norm_num
  have q1 : jsDiv 3 (7686143364045647 * (2 : ℚ) ^ (-58 : ℤ)) =
      some (7916483719987199 * (2 : ℚ) ^ (-46 : ℤ)) := by
    have h := fl_eq_of_near (q := (3 : ℚ) / (7686143364045647 * (2 : ℚ) ^ (-58 : ℤ))) 6
      7916483719987199 (by norm_num) (by norm_num) (by norm_num) (by norm_num)
      (by norm_num [abs_lt])
    unfold jsDiv
    rw [if_neg (by norm_num), h]
    norm_num
  have r1 : mathRound (3 : ℚ) = 3 := by rw [mathRound_eq_iff]; norm_num
  have r2 : mathRound (7916483719987199 * (2 : ℚ) ^ (-46 : ℤ)) = 112 := by
    rw [mathRound_eq_iff]; norm_num
  refine ⟨?_, ?_⟩
  · simp only [calculateNewDimensions, truthy, a1, q1, Option.bind_eq_bind, Option.some_bind,
      if_true, r1, r2]
    simp
  · rw [mathRound_eq_iff]; norm_num

/-- C7, amended. With the aspect ratio kept and a single bound `m` set, for positive
integer arguments below `2 ^ 25`: with only `maxWidth = m` the result is `(m, h)`,
with only `maxHeight = m` it is `(w, m)`, where the derived axis is an integer
nearest to the exact value `x` (`m * origH / origW`, resp. `m * origW / origH`):
it is `round x` (halves up), except that it may be `x - 1 / 2` when `x` lies
exactly halfway between two integers. -/
theorem calculateNewDimensions_single_bound (origW origH m : ℕ)
    (hW : 0 < origW) (hH : 0 < origH) (hm : 0 < m)
    (bW : origW < 2 ^ 25) (bH : origH < 2 ^ 25) (bm : m < 2 ^ 25) :
    (∃ h : ℤ, calculateNewDimensions origW origH (some (m : ℚ)) none true = some ((m : ℤ), h) ∧
        |((m * origH : ℕ) : ℚ) / origW - h| ≤ 1 / 2 ∧
        (h = mathRound (((m * origH : ℕ) : ℚ) / origW) ∨
          (h : ℚ) = ((m * origH : ℕ) : ℚ) / origW - 1 / 2)) ∧
    (∃ w : ℤ, calculateNewDimensions origW origH none (some (m : ℚ)) true = some (w, (m : ℤ)) ∧
        |((m * origW : ℕ) : ℚ) / origH - w| ≤ 1 / 2 ∧
        (w = mathRound (((m * origW : ℕ) : ℚ) / origH) ∨
          (w : ℚ) = ((m * origW : ℕ) : ℚ) / origH - 1 / 2)) := by
  have bW' := lt_two_pow_53_of_lt bW
  have bH' := lt_two_pow_53_of_lt bH
  have bm' := lt_two_pow_53_of_lt bm
  obtain ⟨ha, hlo, hhi⟩ := jsDiv_natCast origW origH hW hH bW' bH'
  have hapos : 0 < roundBinary64 ((origW : ℚ) / origH) := lt_of_lt_of_le (by positivity) hlo
  have hq := jsDiv_bound_aspect m bm' hlo
  have hw := jsMul_bound_aspect m bm' hapos.le hhi
  have hm' : (m : ℚ) ≠ 0 := by exact_mod_cast hm.ne'
  have n1 := mathRound_nearest _ _ hW (mul_lt_two_pow_50 bm bH) _
    (height_from_width_close origW origH m hW hH hm bW' bH')
  have n2 := mathRound_nearest _ _ hH (mul_lt_two_pow_50 bm bW) _
    (width_from_height_close origW origH m hW hH hm bW' bH')
  constructor
  · refine ⟨_, ?_, n1, eq_mathRound_or_half n1⟩
    simp [calculateNewDimensions, truthy, hm', ha, hq, mathRound_natCast]
  · refine ⟨_, ?_, n2, eq_mathRound_or_half n2⟩
    simp [calculateNewDimensions, truthy, hm', ha, hw, mathRound_natCast]

theorem calculateNewDimensions_single_bound_witness :
    (0 < 2000 ∧ 0 < 1000) ∧
      calculateNewDimensions (2000 : ℕ) (1000 : ℕ) (some ((1000 : ℕ) : ℚ)) none true
        = some (1000, 500) := by
  refine ⟨by decide, ?_⟩
  obtain ⟨⟨h, e, hn, -⟩, -⟩ := calculateNewDimensions_single_bound 2000 1000 1000 (by decide)
    (by decide) (by decide) (by norm_num) (by norm_num) (by norm_num)
  rw [e]
  have hx : (((1000 * 1000 : ℕ) : ℚ)) / ((2000 : ℕ) : ℚ) = 500 := by norm_num
  rw [hx, abs_le] at hn
  have h1 : ((499 : ℤ) : ℚ) < h := by push_cast; linarith [hn.2]
  have h2 : (h : ℚ) < ((501 : ℤ) : ℚ) := by push_cast; linarith [hn.1]
  have h1' : 499 < h := by exact_mod_cast h1
  have h2' : h < 501 := by exact_mod_cast h2
  have : h = 500 := by omega
  subst this
  rfl

/-! ### The queue -/

theorem isImageFile_iff (file : File) : isImageFile file = true ↔ file.type ∈ acceptedTypes := by
  unfold isImageFile acceptedTypes
  constructor
  · intro h
    rw [Bool.and_eq_true] at h
    simpa using h.2
  · intro h
    have hs : startsWith file.type "image/" = true := by
      simp only [List.mem_cons, List.mem_singleton, List.not_mem_nil, or_false] at h
      rcases h with h | h | h <;> rw [h] <;> decide
    rw [Bool.and_eq_true]
    exact ⟨hs, by simpa using h⟩

theorem filter_isImageFile (newFiles : List File) :
    newFiles.filter isImageFile = acceptedFiles newFiles := by
  unfold acceptedFiles
  apply List.filter_congr
  intro f _
  by_cases h : f.type ∈ acceptedTypes
  · simp [h, (isImageFile_iff f).mpr h]
  · have : isImageFile f = false := by
      rw [← Bool.not_eq_true]
      exact fun h' => h ((isImageFile_iff f).mp h')
    simp [h, this]

theorem updateUI_files (s : State) : (updateUI s).files = s.files := by
  unfold updateUI
  split_ifs <;> rfl

theorem addFiles_files (s : State) (newFiles : List File) :
    (addFiles s newFiles).files =
      if s.files.length + (acceptedFiles newFiles).length > 100 then s.files
      else s.files ++ acceptedFiles newFiles := by
  unfold addFiles
  rw [filter_isImageFile]
  by_cases h : s.files.length + (acceptedFiles newFiles).length > 100
  · rw [if_pos h, if_pos h]
    rfl
  · rw [if_neg h, if_neg h, updateUI_files]

/-- C3. `addFiles` is all-or-nothing: when the length of the queue plus the number of
incoming files of an accepted type exceeds 100 the queue is unchanged; otherwise the
new queue is the old queue followed by the accepted incoming files in their original
order.  This holds for every queue, in particular for those of length at most 100. -/
theorem addFiles_all_or_nothing (s : State) (newFiles : List File) :
    (addFiles s newFiles).files =
      if s.files.length + (acceptedFiles newFiles).length > 100 then s.files
      else s.files ++ acceptedFiles newFiles := by
  unfold addFiles
  simp only [filter_isImageFile]
  split_ifs with h
  · rfl
  · rw [updateUI_files]

theorem addFiles_invariant (s : State) (newFiles : List File)
    (h : s.files.length ≤ 100 ∧ ∀ f ∈ s.files, f.type ∈ acceptedTypes) :
    (addFiles s newFiles).files.length ≤ 100 ∧
      ∀ f ∈ (addFiles s newFiles).files, f.type ∈ acceptedTypes := by
  rw [addFiles_files]
  split_ifs with hc
  · exact h
  · refine ⟨?_, ?_⟩
    · rw [List.length_append]
      omega
    · intro f hf
      rw [List.mem_append] at hf
      rcases hf with hf | hf
      · exact h.2 f hf
      · unfold acceptedFiles at hf
        rw [List.mem_filter] at hf
        simpa using hf.2

theorem foldl_addFiles_invariant (batches : List (List File)) (s : State)
    (h : s.files.length ≤ 100 ∧ ∀ f ∈ s.files, f.type ∈ acceptedTypes) :
    (batches.foldl addFiles s).files.length ≤ 100 ∧
      ∀ f ∈ (batches.foldl addFiles s).files, f.type ∈ acceptedTypes := by
  induction batches generalizing s with
  | nil => exact h
  | cons b bs ih => exact ih (addFiles s b) (addFiles_invariant s b h)

/-- C9. Queue invariant: after any sequence of `addFiles` calls from the state set up
by the constructor, the queue holds at most 100 files and every queued file has type
`image/png`, `image/jpeg` or `image/jpg`. -/
theorem queue_invariant (batches : List (List File)) :
    (batches.foldl addFiles State.initial).files.length ≤ 100 ∧
      ∀ f ∈ (batches.foldl addFiles State.initial).files,
        f.type = "image/png" ∨ f.type = "image/jpeg" ∨ f.type = "image/jpg" := by
  have h := foldl_addFiles_invariant batches State.initial
    ⟨by simp [State.initial], by simp [State.initial]⟩
  refine ⟨h.1, fun f hf => ?_⟩
  have := h.2 f hf
  simpa [acceptedTypes] using this

/-! ### File names -/

theorem stripExtension_of_no_dot (cs : List Char) (h : '.' ∉ cs) : stripExtension cs = cs := by
  induction cs with
  | nil => rfl
  | cons c cs ih =>
    rw [List.mem_cons, not_or] at h
    have hc : (c == '.') = false := by
      rw [beq_eq_false_iff_ne]
      exact fun e => h.1 e.symm
    simp [stripExtension, matchesExtension, hc, ih h.2]

theorem matchesExtension_dot (ext : List Char) (h : '.' ∉ ext) :
    matchesExtension ('.' :: ext) = decide (ext ≠ [] ∧ '/' ∉ ext) := by
  simp only [matchesExtension]
  have hall : (ext.all fun d => d != '/' && d != '.') = decide ('/' ∉ ext) := by
    rw [Bool.eq_iff_iff]
    simp only [List.all_eq_true, Bool.and_eq_true, bne_iff_ne, ne_eq, decide_eq_true_eq]
    constructor
    · intro h1 hm
      exact (h1 _ hm).1 rfl
    · intro h1 d hd
      exact ⟨fun e => h1 (e ▸ hd), fun e => h (e ▸ hd)⟩
  rw [hall]
  cases ext <;> simp

theorem stripExtension_append_dot (stem ext : List Char) (h : '.' ∉ ext) :
    stripExtension (stem ++ '.' :: ext) =
      if ext ≠ [] ∧ '/' ∉ ext then stem else stem ++ '.' :: ext := by
  induction stem with
  | nil =>
    rw [List.nil_append, stripExtension, matchesExtension_dot ext h]
    by_cases hc : ext ≠ [] ∧ '/' ∉ ext
    · simp [hc]
    · simp only [hc, decide_False, if_false, stripExtension_of_no_dot ext h]
      simp
  | cons c cs ih =>
    have hm : matchesExtension (c :: cs ++ '.' :: ext) = false := by
      simp only [matchesExtension, List.cons_append]
      rw [Bool.and_eq_false_iff]
      right
      rw [← Bool.not_eq_true, List.all_eq_true]
      intro hall
      have := hall '.' (by simp)
      simp at this
    rw [List.cons_append, stripExtension]
    rw [List.cons_append] at hm
    rw [hm, ih]
    by_cases hc : ext ≠ [] ∧ '/' ∉ ext <;> simp [hc]

/-- C6, as stated, fails: for the name `photo.` the specification's base name is
`photo`, giving `converted_photo.webp`, while the code leaves the name unchanged and
generates `converted_photo..webp`. -/
theorem outputFileName_counterexample :
    outputFileName "converted_" "photo." = "converted_photo..webp" ∧
      "converted_" ++ String.mk (removeFromLastDot "photo.".data) ++ ".webp"
        = "converted_photo.webp" := by
  decide

/-- C6, amended. The generated name is `prefix ++ basename ++ ".webp"`, where the base
name is the source name with its last `.` and everything after it removed when at least
one character follows that `.` and none of the following characters is `/`; otherwise
(also when the name contains no `.`) the base name is the whole source name. -/
theorem outputFileName_spec (filePrefix : String) :
    (∀ stem ext : List Char, '.' ∉ ext →
      outputFileName filePrefix (String.mk (stem ++ '.' :: ext)) =
        filePrefix ++
          String.mk (if ext ≠ [] ∧ '/' ∉ ext then stem else stem ++ '.' :: ext) ++ ".webp") ∧
    (∀ name : String, '.' ∉ name.data →
      outputFileName filePrefix name = filePrefix ++ name ++ ".webp") := by
  constructor
  · intro stem ext h
    unfold outputFileName getFileNameWithoutExtension
    rw [stripExtension_append_dot stem ext h, String.append_assoc, String.append_assoc,
      show ("." ++ "webp" : String) = ".webp" by decide, ← String.append_assoc]
  · intro name h
    unfold outputFileName getFileNameWithoutExtension
    rw [stripExtension_of_no_dot _ h, String.append_assoc, String.append_assoc,
      show ("." ++ "webp" : String) = ".webp" by decide, ← String.append_assoc]

theorem outputFileName_spec_witness :
    '.' ∉ "png".data ∧ outputFileName "converted_" "photo.png" = "converted_photo.webp" :=
  ⟨by decide, ((outputFileName_spec "converted_").1 "photo".data "png".data (by decide)).trans
    (by decide)⟩

/-! ### The batch loop -/

theorem conversionResults_length_add (p : Platform) (c : Controls) (files : List File) :
    (conversionResults p c files).length + (failureMessages p c files).length = files.length := by
  induction files with
  | nil => rfl
  | cons f fs ih =>
    unfold conversionResults failureMessages at ih ⊢
    rw [List.filterMap_cons, List.filterMap_cons]
    cases h : convertSingleImage p f c <;> simp only [List.length_cons] <;> omega

theorem foldl_settle (p : Platform) (c : Controls) (total : ℕ) (l : List File) (b : Batch) :
    (l.foldl (settle p c total) b).convertedFiles = b.convertedFiles ++ conversionResults p c l ∧
      (l.foldl (settle p c total) b).errors = b.errors ++ failureMessages p c l ∧
      (l.foldl (settle p c total) b).processed = b.processed + (conversionResults p c l).length := by
  induction l generalizing b with
  | nil => simp [conversionResults, failureMessages]
  | cons f fs ih =>
    rw [List.foldl_cons]
    obtain ⟨h1, h2, h3⟩ := ih (settle p c total b f)
    rw [h1, h2, h3]
    unfold conversionResults failureMessages settle updateProgress
    rw [List.filterMap_cons, List.filterMap_cons]
    cases h : convertSingleImage p f c
    · simp
    · simp
      omega

/-- With enough fuel the loop settles every file from index `i` on exactly once, in
some order. -/
theorem chunkLoop_eq_foldl (p : Platform) (c : Controls) (order : List File → List File)
    (horder : ∀ chunk, (order chunk).Perm chunk) (files : List File) :
    ∀ (fuel i : ℕ) (b : Batch), files.length ≤ i + 10 * fuel →
      ∃ L : List File, L.Perm (files.drop i) ∧
        chunkLoop p c order files files.length fuel i b = L.foldl (settle p c files.length) b := by
  intro fuel
  induction fuel with
  | zero =>
    intro i b h
    refine ⟨[], ?_, rfl⟩
    rw [List.drop_eq_nil_of_le (by omega)]
  | succ n ih =>
    intro i b h
    unfold chunkLoop
    split_ifs with hi
    · obtain ⟨L, hL, e⟩ := ih (i + 10)
        (processChunk p c order files.length b ((files.drop i).take 10)) (by omega)
      refine ⟨order ((files.drop i).take 10) ++ L, ?_, ?_⟩
      · have h1 := (horder ((files.drop i).take 10)).append hL
        rw [← List.drop_drop, List.take_append_drop] at h1
        exact h1
      · rw [e, List.foldl_append]
        rfl
    · refine ⟨[], ?_, rfl⟩
      rw [List.drop_eq_nil_of_le (by omega)]

theorem convertImages_run (p : Platform) (c : Controls) (order : List File → List File)
    (s : State) (hs : s.isConverting = false) (hN : 1 ≤ s.files.length)
    (horder : ∀ chunk, (order chunk).Perm chunk) :
    ∃ L : List File, L.Perm s.files ∧
      (convertImages p c order s).1.convertedFiles = conversionResults p c L ∧
      (convertImages p c order s).1.errors = s.errors ++ failureMessages p c L ∧
      (convertImages p c order s).2.1 = (conversionResults p c L).length := by
  obtain ⟨L, hL, e⟩ := chunkLoop_eq_foldl p c order horder s.files s.files.length 0
    { convertedFiles := [], errors := s.errors, processed := 0, progress := none } (by omega)
  obtain ⟨h1, h2, h3⟩ := foldl_settle p c s.files.length L
    { convertedFiles := [], errors := s.errors, processed := 0, progress := none }
  have hne : (s.files.length == 0) = false := by
    rw [beq_eq_false_iff_ne]
    omega
  refine ⟨L, by simpa using hL, ?_, ?_, ?_⟩
  · simp only [convertImages, hs, hne, Bool.or_self, Bool.false_eq_true, if_false, e, h1]
    simp
  · simp only [convertImages, hs, hne, Bool.or_self, Bool.false_eq_true, if_false, e, h2]
  · simp only [convertImages, hs, hne, Bool.or_self, Bool.false_eq_true, if_false, e, h3]
    simp

/-- C4. Batch outcome count: one run of `convertImages` on a queue of `N ≥ 1` files,
whatever the outcome of each conversion and whatever the order in which the
conversions of a chunk settle, yields exactly `N` outcomes: the results pushed to
`convertedFiles` and the failures reported add up to `N`; the results are those of
all the files that convert, and the reports those of all the files that fail. -/
theorem convertImages_outcomes (p : Platform) (c : Controls) (order : List File → List File)
    (s : State) (hs : s.isConverting = false) (hN : 1 ≤ s.files.length)
    (horder : ∀ chunk, (order chunk).Perm chunk) :
    ∃ reported : List String,
      (convertImages p c order s).1.errors = s.errors ++ reported ∧
      (convertImages p c order s).1.convertedFiles.length + reported.length = s.files.length ∧
      (convertImages p c order s).1.convertedFiles.Perm (conversionResults p c s.files) ∧
      reported.Perm (failureMessages p c s.files) := by
  obtain ⟨L, hL, h1, h2, -⟩ := convertImages_run p c order s hs hN horder
  refine ⟨failureMessages p c L, h2, ?_, ?_, ?_⟩
  · rw [h1, conversionResults_length_add, hL.length_eq]
  · rw [h1]
    exact hL.filterMap _
  · exact hL.filterMap _

/-! ### Decimal digits and `toFixed` -/

theorem toDigitsCore_eq (n : ℕ) : ∀ (fuel : ℕ) (ds : List Char), n < fuel →
    Nat.toDigitsCore 10 fuel n ds =
      (if n < 10 then [Nat.digitChar n]
        else Nat.toDigits 10 (n / 10) ++ [Nat.digitChar (n % 10)]) ++ ds := by
  induction n using Nat.strong_induction_on with
  | _ n ih =>
    intro fuel ds hf
    obtain ⟨f, rfl⟩ : ∃ f, fuel = f + 1 := ⟨fuel - 1, by omega⟩
    unfold Nat.toDigitsCore
    by_cases h0 : n / 10 = 0
    · have hlt : n < 10 := by omega
      have hmod : n % 10 = n := Nat.mod_eq_of_lt hlt
      simp [h0, hlt, hmod]
    · have hge : ¬ n < 10 := by omega
      have hlt : n / 10 < n := by omega
      simp only [h0, if_false, hge]
      rw [ih (n / 10) hlt f _ (by omega)]
      have e : Nat.toDigits 10 (n / 10) =
          (if n / 10 < 10 then [Nat.digitChar (n / 10)]
            else Nat.toDigits 10 (n / 10 / 10) ++ [Nat.digitChar (n / 10 % 10)]) := by
        have := ih (n / 10) hlt (n / 10 + 1) [] (by omega)
        simpa [Nat.toDigits] using this
      rw [← e]
      simp

/-- The decimal digits of `n` are those of `n / 10` followed by the digit `n % 10`. -/
theorem toDigits_eq (n : ℕ) : Nat.toDigits 10 n =
    if n < 10 then [Nat.digitChar n] else Nat.toDigits 10 (n / 10) ++ [Nat.digitChar (n % 10)] := by
  have := toDigitsCore_eq n (n + 1) [] (by omega)
  simpa [Nat.toDigits] using this

theorem toDigits_of_lt_ten (n : ℕ) (h : n < 10) : Nat.toDigits 10 n = [Nat.digitChar n] := by
  rw [toDigits_eq, if_pos h]

theorem toDigits_length_pos (n : ℕ) : 1 ≤ (Nat.toDigits 10 n).length := by
  rw [toDigits_eq]
  split_ifs <;> simp

theorem padded_digits_split (n : ℕ) :
    List.take
        ((if (Nat.toDigits 10 n).length ≤ 1 then
            List.replicate (2 - (Nat.toDigits 10 n).length) '0' ++ Nat.toDigits 10 n
          else Nat.toDigits 10 n).length - 1)
        (if (Nat.toDigits 10 n).length ≤ 1 then
          List.replicate (2 - (Nat.toDigits 10 n).length) '0' ++ Nat.toDigits 10 n
        else Nat.toDigits 10 n) = Nat.toDigits 10 (n / 10) ∧
      List.drop
        ((if (Nat.toDigits 10 n).length ≤ 1 then
            List.replicate (2 - (Nat.toDigits 10 n).length) '0' ++ Nat.toDigits 10 n
          else Nat.toDigits 10 n).length - 1)
        (if (Nat.toDigits 10 n).length ≤ 1 then
          List.replicate (2 - (Nat.toDigits 10 n).length) '0' ++ Nat.toDigits 10 n
        else Nat.toDigits 10 n) = [Nat.digitChar (n % 10)] := by
  by_cases hn : n < 10
  · have hd : n / 10 = 0 := by omega
    have hm : n % 10 = n := Nat.mod_eq_of_lt hn
    rw [toDigits_of_lt_ten n hn, hd, hm]
    constructor <;> rfl
  · have hlen := toDigits_length_pos (n / 10)
    rw [toDigits_eq n, if_neg hn]
    have hl : ¬ (Nat.toDigits 10 (n / 10) ++ [Nat.digitChar (n % 10)]).length ≤ 1 := by
      rw [List.length_append, List.length_singleton]
      omega
    rw [if_neg hl]
    simp only [List.length_append, List.length_singleton, Nat.add_sub_cancel,
      List.take_left', List.drop_left', and_self]

/-- The text of `toFixed(1)`: an optional sign, the decimal numeral of `n / 10`, a
point, and the single digit `n % 10`, where `n` is `|x| * 10` rounded. -/
theorem toFixed1_eq (x : ℚ) (h : |x| < (10 : ℚ) ^ 21) :
    toFixed1 x = some ((if x < 0 then "-" else "") ++
      toString (⌊|x| * 10 + 1 / 2⌋.toNat / 10) ++ "." ++
      toString (⌊|x| * 10 + 1 / 2⌋.toNat % 10)) := by
  unfold toFixed1
  simp only [not_le.mpr h, if_false]
  generalize ⌊|x| * 10 + 1 / 2⌋.toNat = n
  have hmod : n % 10 < 10 := Nat.mod_lt _ (by norm_num)
  have e2 : toString (n % 10) = String.mk [Nat.digitChar (n % 10)] := by
    show (Nat.toDigits 10 (n % 10)).asString = _
    rw [toDigits_of_lt_ten _ hmod]
    rfl
  have e1 : toString (n / 10) = String.mk (Nat.toDigits 10 (n / 10)) := rfl
  rw [e1, e2, (padded_digits_split n).1, (padded_digits_split n).2]

/-! ### The totals and the percentage -/

theorem foldlM_jsAdd {α : Type} (f : α → ℕ) (l : List α) (acc : ℕ)
    (h : acc + (l.map f).sum < 2 ^ 53) :
    l.foldlM (fun sum x => jsAdd sum (f x)) (acc : ℚ) = some ((acc + (l.map f).sum : ℕ) : ℚ) := by
  induction l generalizing acc with
  | nil => simp
  | cons x xs ih =>
    rw [List.map_cons, List.sum_cons] at h
    have h1 : jsAdd (acc : ℚ) (f x) = some ((acc + f x : ℕ) : ℚ) := by
      unfold jsAdd
      rw [← Nat.cast_add]
      exact fl_natCast _ (by omega)
    rw [List.foldlM_cons, h1]
    simp only [Option.bind_eq_bind, Option.some_bind]
    rw [ih (acc + f x) (by omega), List.map_cons, List.sum_cons, Nat.add_assoc]

theorem roundBinary64_intCast (z : ℤ) (h : z.natAbs < 2 ^ 53) : roundBinary64 (z : ℚ) = z := by
  rcases Int.natAbs_eq z with e | e
  · rw [e, Int.cast_natCast]
    exact roundBinary64_natCast _ h
  · rw [e, Int.cast_neg, Int.cast_natCast, roundBinary64_neg, roundBinary64_natCast _ h]

theorem two_zpow_le_two_zpow_1023 {k : ℤ} (hk : k ≤ 1023) :
    (2 : ℚ) ^ k ≤ (2 : ℚ) ^ (1023 : ℤ) :=
  zpow_le_zpow_right₀ (by norm_num) hk

/-- The magnitude of the percentage: for `A = |totalOriginal - totalConverted|`, the
Number `A / totalOriginal * 100` is within relative error `4 * 2 ^ (-53)` of the
exact value. -/
theorem percent_magnitude (A tO : ℕ) (hO : 0 < tO) (bA : A < 2 ^ 40) (bO : tO < 2 ^ 40) :
    0 ≤ roundBinary64 ((A : ℚ) / tO) ∧ roundBinary64 ((A : ℚ) / tO) ≤ (2 : ℚ) ^ (40 : ℤ) ∧
      0 ≤ roundBinary64 (roundBinary64 ((A : ℚ) / tO) * 100) ∧
      roundBinary64 (roundBinary64 ((A : ℚ) / tO) * 100) ≤ (2 : ℚ) ^ (47 : ℤ) ∧
      (0 < A → 0 < roundBinary64 ((A : ℚ) / tO) ∧
        0 < roundBinary64 (roundBinary64 ((A : ℚ) / tO) * 100)) ∧
      |roundBinary64 (roundBinary64 ((A : ℚ) / tO) * 100) * 10 - ((1000 * A : ℕ) : ℚ) / tO| ≤
        4 * (2 : ℚ) ^ (-53 : ℤ) * (((1000 * A : ℕ) : ℚ) / tO) := by
  have hO' : (1 : ℚ) ≤ tO := by exact_mod_cast hO
  have hOpos : (0 : ℚ) < tO := by linarith
  have bA' : (A : ℚ) ≤ (2 : ℚ) ^ (40 : ℤ) := by
    have : (A : ℚ) < ((2 ^ 40 : ℕ) : ℚ) := by exact_mod_cast bA
    refine le_trans this.le (le_of_eq ?_)
    norm_num
  have bO' : (tO : ℚ) ≤ (2 : ℚ) ^ (40 : ℤ) := by
    have : (tO : ℚ) < ((2 ^ 40 : ℕ) : ℚ) := by exact_mod_cast bO
    refine le_trans this.le (le_of_eq ?_)
    norm_num
  have hr0 : (0 : ℚ) ≤ (A : ℚ) / tO := by positivity
  have hr1 : (A : ℚ) / tO ≤ (2 : ℚ) ^ (40 : ℤ) := by
    rw [div_le_iff₀ hOpos]
    calc (A : ℚ) ≤ (2 : ℚ) ^ (40 : ℤ) := bA'
      _ ≤ (2 : ℚ) ^ (40 : ℤ) * tO := le_mul_of_one_le_right (by positivity) hO'
  have ha0 := roundBinary64_nonneg hr0
  have ha1 : roundBinary64 ((A : ℚ) / tO) ≤ (2 : ℚ) ^ (40 : ℤ) := by
    have := roundBinary64_mono hr0 hr1
    rwa [roundBinary64_two_zpow _ (by norm_num)] at this
  have hy0 : (0 : ℚ) ≤ roundBinary64 ((A : ℚ) / tO) * 100 := by positivity
  have hy1 : roundBinary64 ((A : ℚ) / tO) * 100 ≤ (2 : ℚ) ^ (47 : ℤ) := by
    calc roundBinary64 ((A : ℚ) / tO) * 100 ≤ (2 : ℚ) ^ (40 : ℤ) * 100 :=
          mul_le_mul_of_nonneg_right ha1 (by norm_num)
      _ ≤ (2 : ℚ) ^ (47 : ℤ) := by norm_num
  have hX0 := roundBinary64_nonneg hy0
  have hX1 : roundBinary64 (roundBinary64 ((A : ℚ) / tO) * 100) ≤ (2 : ℚ) ^ (47 : ℤ) := by
    have := roundBinary64_mono hy0 hy1
    rwa [roundBinary64_two_zpow _ (by norm_num)] at this
  have hpos : 0 < A → (2 : ℚ) ^ (-40 : ℤ) ≤ (A : ℚ) / tO ∧
      (2 : ℚ) ^ (-40 : ℤ) ≤ roundBinary64 ((A : ℚ) / tO) ∧
      (2 : ℚ) ^ (-40 : ℤ) ≤ roundBinary64 ((A : ℚ) / tO) * 100 ∧
      (2 : ℚ) ^ (-40 : ℤ) ≤ roundBinary64 (roundBinary64 ((A : ℚ) / tO) * 100) := by
    intro hA
    have hA' : (1 : ℚ) ≤ A := by exact_mod_cast hA
    have h1 : (2 : ℚ) ^ (-40 : ℤ) ≤ (A : ℚ) / tO := by
      rw [le_div_iff₀ hOpos]
      calc (2 : ℚ) ^ (-40 : ℤ) * tO ≤ (2 : ℚ) ^ (-40 : ℤ) * (2 : ℚ) ^ (40 : ℤ) :=
            mul_le_mul_of_nonneg_left bO' (by positivity)
        _ = 1 := by rw [← zpow_add₀ (by norm_num)]; norm_num
        _ ≤ A := hA'
    have h2 : (2 : ℚ) ^ (-40 : ℤ) ≤ roundBinary64 ((A : ℚ) / tO) := by
      have := roundBinary64_mono (by positivity) h1
      rwa [roundBinary64_two_zpow _ (by norm_num)] at this
    have h3 : (2 : ℚ) ^ (-40 : ℤ) ≤ roundBinary64 ((A : ℚ) / tO) * 100 := by
      have : (0 : ℚ) < (2 : ℚ) ^ (-40 : ℤ) := by positivity
      nlinarith
    have h4 : (2 : ℚ) ^ (-40 : ℤ) ≤ roundBinary64 (roundBinary64 ((A : ℚ) / tO) * 100) := by
      have := roundBinary64_mono (by positivity) h3
      rwa [roundBinary64_two_zpow _ (by norm_num)] at this
    exact ⟨h1, h2, h3, h4⟩
  have h40 : (0 : ℚ) < (2 : ℚ) ^ (-40 : ℤ) := by positivity
  refine ⟨ha0, ha1, hX0, hX1, fun hA => ?_, ?_⟩
  · obtain ⟨-, h2, -, h4⟩ := hpos hA
    exact ⟨lt_of_lt_of_le h40 h2, lt_of_lt_of_le h40 h4⟩
  · rcases Nat.eq_zero_or_pos A with hA | hA
    · subst hA
      simp [roundBinary64_zero]
    · obtain ⟨h1, -, h3, -⟩ := hpos hA
      have n1 : (2 : ℚ) ^ (-1022 : ℤ) ≤ (A : ℚ) / tO :=
        le_trans (zpow_le_zpow_right₀ (by norm_num) (by norm_num)) h1
      have n2 : (2 : ℚ) ^ (-1022 : ℤ) ≤ roundBinary64 ((A : ℚ) / tO) * 100 :=
        le_trans (zpow_le_zpow_right₀ (by norm_num) (by norm_num)) h3
      obtain ⟨d1, hd1, e1⟩ := roundBinary64_rel n1
      obtain ⟨d2, hd2, e2⟩ := roundBinary64_rel n2
      have h53 : (2 : ℚ) ^ (-53 : ℤ) ≤ 1 / 2 := by norm_num
      have key : roundBinary64 (roundBinary64 ((A : ℚ) / tO) * 100) * 10 =
          ((1000 * A : ℕ) : ℚ) / tO * (1 + d1) * (1 + d2) := by
        rw [e2, e1]
        push_cast
        field_simp
        ring
      rw [key]
      exact rel_mul_close (by positivity) hd1 hd2 h53

theorem fl_of_abs_round_le {q : ℚ} (h : |roundBinary64 q| ≤ (2 : ℚ) ^ (1023 : ℤ)) :
    fl q = some (roundBinary64 q) := by
  unfold fl
  rw [if_pos]
  refine le_trans h ?_
  unfold maxFinite
  norm_num

theorem updateSummary_of_chain (results : List ConvertedFile) (d q x : ℚ)
    (s1 : results.foldlM (fun sum file => jsAdd sum (file.originalSize : ℚ)) 0
      = some (totalOriginalSize results : ℚ))
    (s2 : results.foldlM (fun sum file => jsAdd sum (file.convertedSize : ℚ)) 0
      = some (totalConvertedSize results : ℚ))
    (hsub : jsSub (totalOriginalSize results) (totalConvertedSize results) = some d)
    (hdiv : jsDiv d (totalOriginalSize results) = some q)
    (hmul : jsMul q 100 = some x) (hx : |x| < (10 : ℚ) ^ 21) :
    updateSummary results = some ((if x < 0 then "-" else "") ++
      toString (⌊|x| * 10 + 1 / 2⌋.toNat / 10) ++ "." ++
      toString (⌊|x| * 10 + 1 / 2⌋.toNat % 10) ++ "%") := by
  simp only [updateSummary, s1, s2, hsub, hdiv, hmul, toFixed1_eq x hx, Option.bind_eq_bind,
    Option.some_bind]

theorem totals_exact (results : List ConvertedFile)
    (bO : totalOriginalSize results < 2 ^ 40) (bC : totalConvertedSize results < 2 ^ 40) :
    results.foldlM (fun sum file => jsAdd sum (file.originalSize : ℚ)) 0
        = some (totalOriginalSize results : ℚ) ∧
      results.foldlM (fun sum file => jsAdd sum (file.convertedSize : ℚ)) 0
        = some (totalConvertedSize results : ℚ) := by
  have h1 := foldlM_jsAdd ConvertedFile.originalSize results 0
    (by unfold totalOriginalSize at bO; omega)
  have h2 := foldlM_jsAdd ConvertedFile.convertedSize results 0
    (by unfold totalConvertedSize at bC; omega)
  simp only [Nat.cast_zero, Nat.zero_add] at h1 h2
  exact ⟨h1, h2⟩

/-- The text of the summary and its accuracy, in terms of the two totals. -/
theorem updateSummary_nearest (results : List ConvertedFile)
    (hO : 0 < totalOriginalSize results) (bO : totalOriginalSize results < 2 ^ 40)
    (bC : totalConvertedSize results < 2 ^ 40) :
    ∃ n : ℕ,
      updateSummary results =
        some ((if totalOriginalSize results < totalConvertedSize results then "-" else "") ++
          toString (n / 10) ++ "." ++ toString (n % 10) ++ "%") ∧
      |(n : ℚ) / 10 - abs (((totalOriginalSize results : ℚ) - totalConvertedSize results) /
          totalOriginalSize results * 100)| ≤ 1 / 20 := by
  obtain ⟨s1, s2⟩ := totals_exact results bO bC
  set tO := totalOriginalSize results with htO
  set tC := totalConvertedSize results with htC
  have hOpos : (0 : ℚ) < tO := by exact_mod_cast hO
  -- the magnitude of the difference
  set A : ℕ := ((tO : ℤ) - tC).natAbs with hA
  have bA : A < 2 ^ 40 := by omega
  obtain ⟨ha0, ha1, hX0, hX1, hpos, hclose⟩ := percent_magnitude A tO hO bA bO
  set a := roundBinary64 ((A : ℚ) / tO) with haDef
  set X := roundBinary64 (a * 100) with hXDef
  have hXlt : |X| < (10 : ℚ) ^ 21 := by
    rw [abs_of_nonneg hX0]
    refine lt_of_le_of_lt hX1 ?_
    norm_num
  have hsubv : jsSub (tO : ℚ) tC = some (((tO : ℤ) - tC : ℤ) : ℚ) := by
    unfold jsSub
    have e : (tO : ℚ) - tC = (((tO : ℤ) - tC : ℤ) : ℚ) := by push_cast; ring
    rw [e]
    apply (fl_of_abs_round_le _).trans
    · rw [roundBinary64_intCast _ (by omega)]
    · rw [roundBinary64_intCast _ (by omega), ← Int.cast_abs, Int.abs_eq_natAbs]
      have : ((A : ℤ) : ℚ) ≤ (2 : ℚ) ^ (40 : ℤ) := by
        have : (A : ℚ) < ((2 ^ 40 : ℕ) : ℚ) := by exact_mod_cast bA
        push_cast
        refine le_trans this.le (le_of_eq ?_)
        norm_num
      exact le_trans this (two_zpow_le_two_zpow_1023 (by norm_num))
  have n10 : (0 : ℤ) ≤ ⌊X * 10 + 1 / 2⌋ := by
    apply Int.floor_nonneg.mpr
    positivity
  have hnear := mathRound_nearest (1000 * A) tO hO (by omega) (X * 10) hclose
  have hn : ((⌊X * 10 + 1 / 2⌋.toNat : ℕ) : ℚ) = (mathRound (X * 10) : ℚ) := by
    unfold mathRound
    have := Int.toNat_of_nonneg n10
    exact_mod_cast this
  have hfinal : |((⌊X * 10 + 1 / 2⌋.toNat : ℕ) : ℚ) / 10 - (A : ℚ) / tO * 100| ≤ 1 / 20 := by
    rw [hn]
    have e : (mathRound (X * 10) : ℚ) / 10 - (A : ℚ) / tO * 100 =
        -(((1000 * A : ℕ) : ℚ) / tO - mathRound (X * 10)) / 10 := by
      push_cast
      field_simp
      ring
    rw [e, abs_div, abs_neg, abs_of_pos (by norm_num : (0 : ℚ) < 10)]
    rw [div_le_iff₀ (by norm_num)]
    linarith
  have ha40 : a ≤ (2 : ℚ) ^ (1023 : ℤ) := le_trans ha1 (two_zpow_le_two_zpow_1023 (by norm_num))
  have hX47 : X ≤ (2 : ℚ) ^ (1023 : ℤ) := le_trans hX1 (two_zpow_le_two_zpow_1023 (by norm_num))
  rcases le_or_lt tC tO with hle | hlt
  · -- the converted total does not exceed the original total
    have hz : (((tO : ℤ) - tC : ℤ) : ℚ) = (A : ℚ) := by
      have : ((tO : ℤ) - tC) = (A : ℤ) := by omega
      rw [this]
      simp
    have hdiv : jsDiv (((tO : ℤ) - tC : ℤ) : ℚ) tO = some a := by
      unfold jsDiv
      rw [if_neg hOpos.ne', hz]
      apply fl_of_abs_round_le
      rw [abs_of_nonneg ha0]
      exact ha40
    have hmul : jsMul a 100 = some X := by
      unfold jsMul
      apply fl_of_abs_round_le
      rw [abs_of_nonneg hX0]
      exact hX47
    refine ⟨⌊X * 10 + 1 / 2⌋.toNat, ?_, ?_⟩
    · have := updateSummary_of_chain results _ _ _ s1 s2 hsubv hdiv hmul hXlt
      rw [abs_of_nonneg hX0, if_neg (not_lt.mpr hX0)] at this
      rw [this, if_neg (not_lt.mpr hle)]
    · have e : |((tO : ℚ) - tC) / tO * 100| = (A : ℚ) / tO * 100 := by
        have : (tO : ℚ) - tC = (A : ℚ) := by rw [← hz]; push_cast; ring
        rw [this, abs_of_nonneg (by positivity)]
      rw [e]
      exact hfinal
  · -- the converted total exceeds the original total: the percentage is negative
    have hApos : 0 < A := by omega
    obtain ⟨hapos, hXpos⟩ := hpos hApos
    have hz : (((tO : ℤ) - tC : ℤ) : ℚ) = -(A : ℚ) := by
      have : ((tO : ℤ) - tC) = -(A : ℤ) := by omega
      rw [this]
      simp
    have hdiv : jsDiv (((tO : ℤ) - tC : ℤ) : ℚ) tO = some (-a) := by
      unfold jsDiv
      rw [if_neg hOpos.ne', hz, neg_div]
      apply (fl_of_abs_round_le _).trans
      · rw [roundBinary64_neg]
      · rw [roundBinary64_neg, abs_neg, abs_of_nonneg ha0]
        exact ha40
    have hmul : jsMul (-a) 100 = some (-X) := by
      unfold jsMul
      rw [neg_mul]
      apply (fl_of_abs_round_le _).trans
      · rw [roundBinary64_neg]
      · rw [roundBinary64_neg, abs_neg, abs_of_nonneg hX0]
        exact hX47
    have hXlt' : |(-X)| < (10 : ℚ) ^ 21 := by rwa [abs_neg]
    refine ⟨⌊X * 10 + 1 / 2⌋.toNat, ?_, ?_⟩
    · have := updateSummary_of_chain results _ _ _ s1 s2 hsubv hdiv hmul hXlt'
      rw [abs_neg, abs_of_nonneg hX0, if_pos (by linarith : -X < 0)] at this
      rw [this, if_pos hlt]
    · have e : |((tO : ℚ) - tC) / tO * 100| = (A : ℚ) / tO * 100 := by
        have : (tO : ℚ) - tC = -(A : ℚ) := by rw [← hz]; push_cast; ring
        rw [this, neg_div, neg_mul, abs_neg, abs_of_nonneg (by positivity)]
      rw [e]
      exact hfinal

/-- C8. Summary savings: for results whose original sizes sum to `totalOriginal > 0`
and whose converted sizes sum to `totalConverted` (both below `2 ^ 40` bytes),
`updateSummary` reports `(totalOriginal - totalConverted) / totalOriginal * 100` with
exactly one decimal digit followed by `%`: the text is an optional minus sign, the
decimal numeral of `n / 10`, a point, the digit `n % 10` and `%`, where `n / 10` is
within `1 / 20` of the magnitude of the exact percentage.  With totals 1000000 and
400000 the text is `60.0%`. -/
theorem updateSummary_percent (results : List ConvertedFile)
    (hO : 0 < totalOriginalSize results) (bO : totalOriginalSize results < 2 ^ 40)
    (bC : totalConvertedSize results < 2 ^ 40) :
    (∃ n : ℕ,
      updateSummary results =
        some ((if totalOriginalSize results < totalConvertedSize results then "-" else "") ++
          toString (n / 10) ++ "." ++ toString (n % 10) ++ "%") ∧
      |(n : ℚ) / 10 - abs (((totalOriginalSize results : ℚ) - totalConvertedSize results) /
          totalOriginalSize results * 100)| ≤ 1 / 20) ∧
    (totalOriginalSize results = 1000000 → totalConvertedSize results = 400000 →
      updateSummary results = some "60.0%") := by
  refine ⟨updateSummary_nearest results hO bO bC, fun h1 h2 => ?_⟩
  obtain ⟨n, e, hn⟩ := updateSummary_nearest results hO bO bC
  rw [h1, h2] at hn e
  have hv : abs ((((1000000 : ℕ) : ℚ) - ((400000 : ℕ) : ℚ)) / ((1000000 : ℕ) : ℚ) * 100) = 60 := by
    norm_num
  rw [hv, abs_le] at hn
  have u1 : ((599 : ℕ) : ℚ) < n := by push_cast; linarith [hn.1]
  have u2 : (n : ℚ) < ((601 : ℕ) : ℚ) := by push_cast; linarith [hn.2]
  have v1 : 599 < n := by exact_mod_cast u1
  have v2 : n < 601 := by exact_mod_cast u2
  have : n = 600 := by omega
  subst this
  rw [e]
  decide

theorem updateSummary_percent_witness :
    (0 < totalOriginalSize [sampleResult] ∧ totalOriginalSize [sampleResult] < 2 ^ 40 ∧
      totalConvertedSize [sampleResult] < 2 ^ 40) ∧
      updateSummary [sampleResult] = some "60.0%" :=
  ⟨by decide, (updateSummary_percent [sampleResult] (by decide) (by decide) (by decide)).2
    (by decide) (by decide)⟩

/-! ### The progress counter -/

theorem convertImages_outcomes_witness :
    ((State.mk [samplePhoto, emptyPhoto] [] false []).isConverting = false ∧
      1 ≤ (State.mk [samplePhoto, emptyPhoto] [] false []).files.length) ∧
    ∃ reported : List String,
      (convertImages samplePlatform sampleControls id
        (State.mk [samplePhoto, emptyPhoto] [] false [])).1.errors = [] ++ reported ∧
      (convertImages samplePlatform sampleControls id
        (State.mk [samplePhoto, emptyPhoto] [] false [])).1.convertedFiles.length
          + reported.length = 2 ∧
      (convertImages samplePlatform sampleControls id
        (State.mk [samplePhoto, emptyPhoto] [] false [])).1.convertedFiles.Perm
          (conversionResults samplePlatform sampleControls [samplePhoto, emptyPhoto]) ∧
      reported.Perm (failureMessages samplePlatform sampleControls [samplePhoto, emptyPhoto]) :=
  ⟨⟨rfl, by decide⟩, convertImages_outcomes samplePlatform sampleControls id
    (State.mk [samplePhoto, emptyPhoto] [] false []) rfl (by decide) (fun _ => List.Perm.refl _)⟩

/-- The counter `processed` counts the conversions that succeed: at the end of a run it
equals the number of results. -/
theorem convertImages_processed (p : Platform) (c : Controls) (order : List File → List File)
    (s : State) (hs : s.isConverting = false) (hN : 1 ≤ s.files.length)
    (horder : ∀ chunk, (order chunk).Perm chunk) :
    (convertImages p c order s).2.1 = (convertImages p c order s).1.convertedFiles.length := by
  obtain ⟨L, -, h1, -, h3⟩ := convertImages_run p c order s hs hN horder
  rw [h1, h3]

/-- C5 fails on the code: for a queue of one file that does not load, the run reports
the failure, and the counter `processed` ends at 0, not at `N = 1`; `updateProgress`
is never called. -/
theorem convertImages_processed_failure :
    (State.mk [emptyPhoto] [] false []).files.length = 1 ∧
      (convertImages samplePlatform sampleControls id (State.mk [emptyPhoto] [] false [])).2
        = (0, none) ∧
      (convertImages samplePlatform sampleControls id (State.mk [emptyPhoto] [] false [])).1.errors
        = ["Failed to convert empty.png: Failed to load image"] := by
  decide

/-! ### Settings -/

theorem getProperty_setProperty (o : Properties) (k key : String) (v : Json) :
    getProperty (setProperty o k v) key = if k = key then some v else getProperty o key := by
  induction o with
  | nil =>
    by_cases h : k = key
    · simp [setProperty, getProperty, List.lookup, h]
    · have h' : (key == k) = false := by
        rw [beq_eq_false_iff_ne]
        exact fun e => h e.symm
      simp [setProperty, getProperty, List.lookup, h, h']
  | cons kv rest ih =>
    obtain ⟨k0, v0⟩ := kv
    unfold getProperty at ih ⊢
    by_cases h0 : k0 = k
    · subst h0
      by_cases h : k0 = key
      · simp [setProperty, List.lookup, h]
      · have h' : (key == k0) = false := by
          rw [beq_eq_false_iff_ne]
          exact fun e => h e.symm
        simp [setProperty, List.lookup, h, h']
    · simp only [setProperty, h0, if_false]
      by_cases h1 : key = k0
      · subst h1
        have : ¬ k = key := fun e => h0 e.symm
        simp [List.lookup, this]
      · have h' : (key == k0) = false := by
          rw [beq_eq_false_iff_ne]
          exact h1
        simp only [List.lookup, h']
        exact ih

theorem lookup_eq_none_of_not_mem (rest : Properties) (k : String)
    (h : k ∉ rest.map Prod.fst) : List.lookup k rest = none := by
  induction rest with
  | nil => rfl
  | cons kv rest ih =>
    obtain ⟨k0, v0⟩ := kv
    rw [List.map_cons, List.mem_cons, not_or] at h
    have h' : (k == k0) = false := by
      rw [beq_eq_false_iff_ne]
      exact h.1
    simp only [List.lookup, h']
    exact ih h.2

theorem getProperty_spread (source target : Properties) (key : String)
    (hn : (source.map Prod.fst).Nodup) :
    getProperty (spread target source) key =
      match getProperty source key with
      | some v => some v
      | none => getProperty target key := by
  induction source generalizing target with
  | nil => simp [spread, getProperty]
  | cons kv rest ih =>
    obtain ⟨k, v⟩ := kv
    rw [List.map_cons, List.nodup_cons] at hn
    have e : spread target ((k, v) :: rest) = spread (setProperty target k v) rest := rfl
    rw [e, ih _ hn.2, getProperty_setProperty]
    by_cases h : k = key
    · subst h
      have hnone : getProperty rest k = none := lookup_eq_none_of_not_mem rest k hn.1
      rw [hnone]
      simp [getProperty, List.lookup]
    · have h' : (key == k) = false := by
        rw [beq_eq_false_iff_ne]
        exact fun e => h e.symm
      simp [getProperty, List.lookup, h, h']

theorem spread_defaultSettings (key : String) :
    getProperty (spread [] defaultSettings) key = getProperty defaultSettings key := by
  rw [getProperty_spread defaultSettings [] key (by decide)]
  cases h : getProperty defaultSettings key <;> simp [getProperty]

/-- C10. Settings load: `loadSettings` returns the default record (quality 0.8, format
`webp`, empty `maxWidth` and `maxHeight`, `maintainAspectRatio` true, prefix
`converted_`, theme `dark`) when nothing is stored or the stored text does not parse;
when the stored text parses to a record, every field of the result has the stored value
if the stored record has that field and the default value otherwise. -/
theorem loadSettings_spec (jsonParse : String → Except String Json) :
    loadSettings (Except.ok none) jsonParse =
        [("quality", Json.number (roundBinary64 (8 / 10))), ("format", Json.string "webp"),
          ("maxWidth", Json.string ""), ("maxHeight", Json.string ""),
          ("maintainAspectRatio", Json.bool true), ("filePrefix", Json.string "converted_"),
          ("theme", Json.string "dark")] ∧
      (∀ (saved message : String), jsonParse saved = Except.error message →
        loadSettings (Except.ok (some saved)) jsonParse = loadSettings (Except.ok none) jsonParse) ∧
      (∀ (saved : String) (stored : Properties), saved ≠ "" →
        jsonParse saved = Except.ok (Json.object stored) → (stored.map Prod.fst).Nodup →
        ∀ key : String,
          getProperty (loadSettings (Except.ok (some saved)) jsonParse) key =
            match getProperty stored key with
            | some v => some v
            | none => getProperty defaultSettings key) := by
  refine ⟨rfl, ?_, ?_⟩
  · intro saved message h
    unfold loadSettings
    simp only [h]
    split_ifs <;> rfl
  · intro saved stored hs h hn key
    unfold loadSettings
    simp only [hs, if_false, h, ownProperties]
    rw [getProperty_spread stored _ key hn, spread_defaultSettings]

theorem loadSettings_spec_witness :
    (sampleStored ≠ "" ∧ ([("theme", Json.string "light")].map Prod.fst).Nodup) ∧
      getProperty (loadSettings (Except.ok (some sampleStored))
        (fun _ => Except.ok (Json.object [("theme", Json.string "light")]))) "theme"
          = some (Json.string "light") ∧
      getProperty (loadSettings (Except.ok (some sampleStored))
        (fun _ => Except.ok (Json.object [("theme", Json.string "light")]))) "format"
          = some (Json.string "webp") :=
  ⟨⟨by decide, by decide⟩,
    ((loadSettings_spec (fun _ => Except.ok (Json.object [("theme", Json.string "light")]))).2.2
      sampleStored [("theme", Json.string "light")] (by decide) rfl (by decide)
      "theme").trans rfl,
    ((loadSettings_spec (fun _ => Except.ok (Json.object [("theme", Json.string "light")]))).2.2
      sampleStored [("theme", Json.string "light")] (by decide) rfl (by decide)
      "format").trans rfl⟩

end ImageConverter
